import Mathlib

/-!
Verification of the three-way merge engine in
`src/eden/scm/edenscm/simplemerge.py`.

Bytes are modelled as `Nat` (each in 0..255), byte buffers as `List Nat`,
and tokens (lines or words) as `List Nat` as well.  Fallible code
(assertions, the `CantShowWordConflicts` exception, `ValueError`) is
modelled with `Except`.

The line/word splitters of `mdiff` and the matcher
`mdiff.get_matching_blocks` are not part of the source tree; they are
modelled from the spec (each such definition says so in its doc comment).
-/

namespace Simplemerge

/-- A byte buffer / token: a list of byte values. -/
abbrev Tok := List Nat

/-- Python slice `l[i:j]` (with the usual clamping behaviour). -/
def slice (l : List Tok) (i j : Nat) : List Tok :=
  (l.take j).drop i

/-- Byte-level slice `l[i:j]` of a buffer. -/
def bslice (l : Tok) (i j : Nat) : Tok :=
  (l.take j).drop i

/-- Concatenation of a list of tokens back into a buffer (`b"".join`). -/
def joinl (l : List Tok) : Tok := l.flatten

/-- Byte string of a Lean string literal (ASCII, for concrete test inputs). -/
def bs (s : String) : Tok := s.data.map Char.toNat

/-- Modelled from the spec (§3, §4.1): `mdiff.splitnewlines` is not in the
source tree.  Line tokenization: split after each line terminator
(`\n`, `\r\n`, or a `\r` not followed by `\n`); the terminator stays
attached to its line; the final token may lack a terminator.
Helper carrying the current (reversed-order-free) partial line. -/
def splitnlGo : List Nat → Tok → List Tok
  | [], cur => if cur = [] then [] else [cur]
  | 10 :: rest, cur => (cur ++ [10]) :: splitnlGo rest []
  | 13 :: 10 :: rest, cur => (cur ++ [13, 10]) :: splitnlGo rest []
  | 13 :: rest, cur => (cur ++ [13]) :: splitnlGo rest []
  | c :: rest, cur => splitnlGo rest (cur ++ [c])

/-- Modelled from the spec (§3, §4.1): line tokenization of a buffer. -/
def splitnewlines (text : Tok) : List Tok :=
  splitnlGo text []

/-- Whether a byte counts as (non-newline) whitespace for word splitting. -/
def isWS (c : Nat) : Bool := c == 32 || c == 9 || c == 13

/-- Modelled from the spec (§3, §4.1): `mdiff.splitwords` is not in the
source tree.  Split a buffer into "words": maximal runs of whitespace or
of non-whitespace, with `\n` always its own token.  `cur` is the pending
run, `curWS` its class. -/
def splitwGo : List Nat → Tok → Bool → List Tok
  | [], cur, _ => if cur = [] then [] else [cur]
  | c :: rest, cur, curWS =>
    if c = 10 then
      (if cur = [] then [] else [cur]) ++ [10] :: splitwGo rest [] false
    else if cur = [] then
      splitwGo rest [c] (isWS c)
    else if isWS c = curWS then
      splitwGo rest (cur ++ [c]) curWS
    else
      cur :: splitwGo rest [c] (isWS c)

/-- Modelled from the spec (§3, §4.1): word tokenization of a buffer. -/
def splitwords (text : Tok) : List Tok :=
  splitwGo text [] false

/-- The loop body of `splitwordswithoutemptylines` (source lines 99-109):
fold each lone `"\n"` word into the preceding buffered group. -/
def swelGo : List Tok → List Tok → List Tok
  | [], buf => if buf = [] then [] else [joinl buf]
  | w :: ws, buf =>
    if w ≠ [10] ∧ buf ≠ [] then
      joinl buf :: swelGo ws [w]
    else
      swelGo ws (buf ++ [w])

/-- Source `splitwordswithoutemptylines` (lines 92-110): run `splitwords`,
then fold `"\n"` into the previous word. -/
def splitwordswithoutemptylines (text : Tok) : List Tok :=
  swelGo (splitwords text) []

/-- Source `intersect` (lines 31-51): intersection of two half-open ranges,
`none` when empty. -/
def intersect (ra rb : Nat × Nat) : Option (Nat × Nat) :=
  let sa := max ra.1 rb.1
  let sb := min ra.2 rb.2
  if sa < sb then some (sa, sb) else none

/-- Source `compare_range` (lines 54-61): compare `a[astart:aend] ==
b[bstart:bend]` without slicing.  Lengths are compared over `Int` to match
Python's semantics when an end precedes a start. -/
def compare_range (a : List Tok) (astart aend : Nat) (b : List Tok)
    (bstart bend : Nat) : Bool :=
  if ((aend : Int) - (astart : Int)) ≠ ((bend : Int) - (bstart : Int)) then
    false
  else
    (List.range (aend - astart)).all fun i =>
      a.get? (astart + i) == b.get? (bstart + i)

/-- A matching block `(base_offset, side_offset, length)` (spec §3):
`base_tokens[base:base+len] == side_tokens[side:side+len]`. -/
structure MBlock where
  base : Nat
  side : Nat
  len  : Nat
deriving DecidableEq, Repr

/-- A sync region `(z1, z2, a1, a2, b1, b2)` (spec §3). -/
structure Sync where
  z1 : Nat
  z2 : Nat
  a1 : Nat
  a2 : Nat
  b1 : Nat
  b2 : Nat
deriving DecidableEq, Repr

/-- A tagged region, the yield values of `merge_regions` (source lines
249-332). -/
inductive Region where
  | unchanged (z1 z2 : Nat)
  | same (a1 a2 : Nat)
  | sidea (a1 a2 : Nat)
  | sideb (b1 b2 : Nat)
  | conflict (z1 z2 a1 a2 b1 b2 : Nat)
deriving DecidableEq, Repr

/-- The error kinds raised by the merge code.  `cantShowWordConflicts` is
the exception class of the same name (source line 64); the two assert
kinds model the numeric `assert` statements of `merge_regions`; and
`cantHandleSame` models the final-else
`AssertionError("can't handle a=b=base but unmatched")` (line 315). -/
inductive MergeErr where
  | cantShowWordConflicts
  | assertMatchlen
  | assertMonotone
  | cantHandleSame
deriving DecidableEq, Repr

/-- Source `wordmergemode` (lines 68-78). -/
inductive WordMergeMode where
  | enforced
  | ondemand
  | disabled
deriving DecidableEq, Repr

/-- The `localorother` option of `merge_lines`: `"local"` or `"other"`. -/
inductive Side where
  | sidelocal
  | sideother
deriving DecidableEq, Repr

/-- The keyword arguments of `merge_lines` (source lines 132-143), with
the source's default values. -/
structure MergeOpts where
  name_a : Option Tok := none
  name_b : Option Tok := none
  name_base : Option Tok := none
  start_marker : Option Tok := some (bs "<<<<<<<")
  mid_marker : Option Tok := some (bs "=======")
  end_marker : Option Tok := some (bs ">>>>>>>")
  base_marker : Option Tok := none
  localorother : Option Side := none
  minimize : Bool := false

/-- The token splitter selected by `Merge3Text.__init__` (lines 123-126). -/
def splitFor (w : WordMergeMode) : Tok → List Tok :=
  if w = WordMergeMode.enforced then splitwordswithoutemptylines
  else splitnewlines

/-- Source `escape` inside `find_sync_regions` (lines 389-391): escape a
word so it looks like a line ending with `"\n"`
(`\` → `\\`, `\n` → `\n`, then append a literal newline). -/
def escape (word : Tok) : Tok :=
  (word.map fun c =>
    if c = 92 then [92, 92] else if c = 10 then [92, 110] else [c]).flatten
    ++ [10]

/-- Source `concat` inside `find_sync_regions` (lines 393-395). -/
def concatEsc (words : List Tok) : Tok :=
  joinl (words.map escape)

/-- The buffer actually handed to the matcher by `find_sync_regions`
(lines 387-403): the raw text, or in enforced mode the escaped
concatenation of the word tokens. -/
def matchText (w : WordMergeMode) (text : Tok) : Tok :=
  if w = WordMergeMode.enforced then concatEsc (splitFor w text) else text

/-! ### A concrete matcher, modelled from the spec

`mdiff.get_matching_blocks` is not in the source tree.  Modelled from the
spec (§4.2): the classical longest-common-subsequence "matching blocks"
decomposition over the line tokenization, ascending, non-overlapping,
terminated by the zero-length sentinel.  It is written with explicit fuel
so that it evaluates by kernel reduction on concrete inputs. -/

/-- Length of the common run of `xs`/`ys` starting at `i`/`j`, not
exceeding `ahi`/`bhi`. -/
def runLen (xs ys : List Tok) (ahi bhi : Nat) : Nat → Nat → Nat → Nat
  | 0, _, _ => 0
  | fuel + 1, i, j =>
    if i < ahi ∧ j < bhi ∧ xs.get? i = ys.get? j ∧ (xs.get? i).isSome then
      runLen xs ys ahi bhi fuel (i + 1) (j + 1) + 1
    else 0

/-- Longest matching block of `xs[alo:ahi]` / `ys[blo:bhi]`: earliest
maximal run (ties broken by smallest `i`, then smallest `j`). -/
def bestBlock (xs ys : List Tok) (alo ahi blo bhi : Nat) : MBlock :=
  let cands := (List.range ahi).filterMap fun i =>
    if alo ≤ i then
      ((List.range bhi).filterMap fun j =>
        if blo ≤ j then some (MBlock.mk i j
          (runLen xs ys ahi bhi (ahi - i + 1) i j)) else none)
    else none
  (cands.flatten).foldl
    (fun best k => if best.len < k.len then k else best)
    (MBlock.mk alo blo 0)

/-- Recursive matching-block decomposition, with fuel. -/
def lcsGo (xs ys : List Tok) : Nat → Nat → Nat → Nat → Nat → List MBlock
  | 0, _, _, _, _ => []
  | fuel + 1, alo, ahi, blo, bhi =>
    let k := bestBlock xs ys alo ahi blo bhi
    if k.len = 0 then []
    else
      lcsGo xs ys fuel alo k.base blo k.side
        ++ [k]
        ++ lcsGo xs ys fuel (k.base + k.len) ahi (k.side + k.len) bhi

/-- Modelled from the spec (§4.2): `mdiff.get_matching_blocks` over byte
buffers, returning line-indexed blocks with the terminating sentinel. -/
def get_matching_blocks (x y : Tok) : List MBlock :=
  let xs := splitnewlines x
  let ys := splitnewlines y
  lcsGo xs ys (xs.length + ys.length + 1) 0 xs.length 0 ys.length
    ++ [MBlock.mk xs.length ys.length 0]

/-! ### Sync-region finder (source `find_sync_regions`, lines 379-456) -/

/-- The `while ia < len_a and ib < len_b` loop of `find_sync_regions`
(lines 412-449), written on the remaining block lists with explicit fuel
(each iteration consumes one block from one side).  The slice-equality
`assert`s of lines 426-441 are not modelled here; theorem `c5` below
proves that they hold. -/
def syncLoop : Nat → List MBlock → List MBlock → List Sync
  | 0, _, _ => []
  | fuel + 1, ka :: arest, kb :: brest =>
    let syncs :=
      match intersect (ka.base, ka.base + ka.len)
          (kb.base, kb.base + kb.len) with
      | some (intbase, intend) =>
        let intlen := intend - intbase
        let asub := ka.side + (intbase - ka.base)
        let bsub := kb.side + (intbase - kb.base)
        [Sync.mk intbase intend asub (asub + intlen) bsub (bsub + intlen)]
      | none => []
    syncs ++
      (if ka.base + ka.len < kb.base + kb.len then
        syncLoop fuel arest (kb :: brest)
      else
        syncLoop fuel (ka :: arest) brest)
  | _ + 1, _, _ => []

/-- Source `find_sync_regions` parameterized by the matcher `M`:
intersect the two matching-block lists and append the final zero-length
sync region. -/
def find_sync_regions (M : Tok → Tok → List MBlock) (w : WordMergeMode)
    (basetext atext btext : Tok) : List Sync :=
  let base := splitFor w basetext
  let a := splitFor w atext
  let b := splitFor w btext
  let amatches := M (matchText w basetext) (matchText w atext)
  let bmatches := M (matchText w basetext) (matchText w btext)
  syncLoop (amatches.length + bmatches.length + 1) amatches bmatches
    ++ [Sync.mk base.length base.length a.length a.length b.length b.length]

/-! ### Region classifier (source `merge_regions`, lines 249-332) -/

/-- The gap classification of `merge_regions` (source lines 300-315): the
`if len_a or len_b` block, comparing the three pending ranges and
emitting `same` / `b` / `a` / `conflict`; the final-else
`AssertionError("can't handle a=b=base but unmatched")` is the error
`cantHandleSame`. -/
def classifyGap (a b base : List Tok) (iz ia ib zm am bm : Nat) :
    Except MergeErr (List Region) :=
  if 0 < am - ia ∨ 0 < bm - ib then
    -- equal_a, equal_b, same of lines 302-304, inlined
    if compare_range a ia am b ib bm then .ok [Region.same ia am]
    else if compare_range a ia am base iz zm ∧
        ¬ compare_range b ib bm base iz zm then .ok [Region.sideb ib bm]
    else if compare_range b ib bm base iz zm ∧
        ¬ compare_range a ia am base iz zm then .ok [Region.sidea ia am]
    else if ¬ compare_range a ia am base iz zm ∧
        ¬ compare_range b ib bm base iz zm then
      .ok [Region.conflict iz zm ia am ib bm]
    else .error .cantHandleSame
  else .ok []

/-- The body of `merge_regions`: walk the sync regions with cursors
`iz, ia, ib`.  The numeric `assert`s of lines 287-296 are modelled as
`Except` failures (`assertMatchlen` for the match-length asserts,
`assertMonotone` for the `len_* >= 0` asserts). -/
def mergeRegionsLoop (a b base : List Tok) :
    List Sync → Nat → Nat → Nat → Except MergeErr (List Region)
  | [], _, _, _ => .ok []
  | s :: rest, iz, ia, ib =>
    let matchlen := s.z2 - s.z1
    if ¬ (s.z1 ≤ s.z2 ∧ s.a1 ≤ s.a2 ∧ s.b1 ≤ s.b2 ∧
        s.a2 - s.a1 = matchlen ∧ s.b2 - s.b1 = matchlen) then
      .error .assertMatchlen
    else if ¬ (ia ≤ s.a1 ∧ ib ≤ s.b1 ∧ iz ≤ s.z1) then
      .error .assertMonotone
    else
      do
        let g ← classifyGap a b base iz ia ib s.z1 s.a1 s.b1
        if 0 < matchlen then
          let rest' ← mergeRegionsLoop a b base rest s.z2 s.a2 s.b2
          .ok (g ++ Region.unchanged s.z1 s.z2 :: rest')
        else
          let rest' ← mergeRegionsLoop a b base rest s.z1 s.a1 s.b1
          .ok (g ++ rest')

/-- Source `merge_regions`: classify the gaps between the sync regions. -/
def merge_regions (M : Tok → Tok → List MBlock) (w : WordMergeMode)
    (basetext atext btext : Tok) : Except MergeErr (List Region) :=
  mergeRegionsLoop (splitFor w atext) (splitFor w btext)
    (splitFor w basetext) (find_sync_regions M w basetext atext btext) 0 0 0

/-! ### Minimizer (source `minimize`, lines 334-377) -/

/-- The `while` loop of lines 350-353: number of matching tokens at the
front of the two conflict sides. -/
def frontMatches (a b : List Tok) (a1 b1 alen blen : Nat) : Nat :=
  ((List.range (min alen blen)).takeWhile fun ii =>
    a.get? (a1 + ii) == b.get? (b1 + ii)).length

/-- The `while` loop of lines 356-361: number of matching tokens at the
end of the two conflict sides. -/
def endMatches (a b : List Tok) (a2 b2 alen blen : Nat) : Nat :=
  ((List.range (min alen blen)).takeWhile fun ii =>
    a.get? (a2 - ii - 1) == b.get? (b2 - ii - 1)).length

/-- Source `minimize`: trim matching front/end runs off each conflict
region, re-emitting them as `same` regions. -/
def minimize (a b : List Tok) : List Region → List Region
  | [] => []
  | Region.conflict z1 z2 a1 a2 b1 b2 :: rest =>
    let alen := a2 - a1
    let blen := b2 - b1
    let startmatches := frontMatches a b a1 b1 alen blen
    let endmatches := endMatches a b a2 b2 alen blen
    (if 0 < startmatches then [Region.same a1 (a1 + startmatches)] else [])
      ++ [Region.conflict z1 z2 (a1 + startmatches) (a2 - endmatches)
            (b1 + startmatches) (b2 - endmatches)]
      ++ (if 0 < endmatches then [Region.same (a2 - endmatches) a2] else [])
      ++ minimize a b rest
  | r :: rest => r :: minimize a b rest

/-! ### Renderer (source `merge_lines`, lines 132-211)

The renderer is written to yield *tagged* tokens: each output token is
paired with a `Bool` that is `true` exactly when the token was yielded as
a conflict-marker line (lines 196-209 of the source).  `merge_lines`
discards the tags; they only serve to state marker-placement properties. -/

/-- The newline sniff of lines 147-152: conflict-marker terminator from
`a`'s first token. -/
def sniffNewline (a : List Tok) : Tok :=
  match a.head? with
  | some t =>
    if List.isSuffixOf [13, 10] t then [13, 10]
    else if List.isSuffixOf [13] t then [13]
    else [10]
  | none => [10]

/-- Label composition of lines 153-158: append ` label` to a marker when
both the marker and the label are set and non-empty (Python truthiness). -/
def composeMarker (marker label : Option Tok) : Option Tok :=
  match marker, label with
  | some m, some nm =>
    if nm ≠ [] ∧ m ≠ [] then some (m ++ [32] ++ nm) else some m
  | m, _ => m

/-- Everything the renderer loop reads: mode, word-merge fallback,
composed markers, sniffed newline, force-side option and the three token
sequences. -/
structure RenderCtx where
  w : WordMergeMode
  wm : Tok → Tok → Tok → Except MergeErr (Option Tok)
  startm : Option Tok
  midm : Option Tok
  endm : Option Tok
  basem : Option Tok
  newline : Tok
  lo : Option Side
  base : List Tok
  a : List Tok
  b : List Tok

/-- The marker-block emission of lines 196-209 (start marker, `a` side,
optional base marker and base lines, mid marker, `b` side, end marker). -/
def conflictMarkers (ctx : RenderCtx) (z1 z2 a1 a2 b1 b2 : Nat) :
    List (Bool × Tok) :=
  (match ctx.startm with
    | some m => [(true, m ++ ctx.newline)]
    | none => [])
  ++ (slice ctx.a a1 a2).map (fun t => (false, t))
  ++ (match ctx.basem with
    | some m =>
      (true, m ++ ctx.newline) :: (slice ctx.base z1 z2).map
        (fun t => (false, t))
    | none => [])
  ++ (match ctx.midm with
    | some m => [(true, m ++ ctx.newline)]
    | none => [])
  ++ (slice ctx.b b1 b2).map (fun t => (false, t))
  ++ (match ctx.endm with
    | some m => [(true, m ++ ctx.newline)]
    | none => [])

/-- Rendering of one tagged region (the body of the `for t in
merge_regions` loop, lines 162-211).  Returns the yielded tokens, whether
`self.conflicts` was set, and the `conflictscount` increment. -/
def renderRegion (ctx : RenderCtx) :
    Region → Except MergeErr (List (Bool × Tok) × Bool × Nat)
  | Region.unchanged i j =>
    .ok ((slice ctx.base i j).map (fun t => (false, t)), false, 0)
  | Region.sidea i j =>
    .ok ((slice ctx.a i j).map (fun t => (false, t)), false, 0)
  | Region.same i j =>
    .ok ((slice ctx.a i j).map (fun t => (false, t)), false, 0)
  | Region.sideb i j =>
    .ok ((slice ctx.b i j).map (fun t => (false, t)), false, 0)
  | Region.conflict z1 z2 a1 a2 b1 b2 =>
    match ctx.lo with
    | some Side.sidelocal =>
      .ok ((slice ctx.a a1 a2).map (fun t => (false, t)), false, 0)
    | some Side.sideother =>
      .ok ((slice ctx.b b1 b2).map (fun t => (false, t)), false, 0)
    | none =>
      if ctx.w = WordMergeMode.enforced then
        .error .cantShowWordConflicts
      else if ctx.w = WordMergeMode.ondemand then
        match ctx.wm (joinl (slice ctx.base z1 z2))
            (joinl (slice ctx.a a1 a2)) (joinl (slice ctx.b b1 b2)) with
        | .error e => .error e
        | .ok (some text) =>
          if text ≠ [] then
            -- `text.splitlines(True)` of line 191; for byte strings this
            -- coincides with the line tokenization.
            .ok ((splitnewlines text).map (fun t => (false, t)), false, 0)
          else
            .ok (conflictMarkers ctx z1 z2 a1 a2 b1 b2, true, 1)
        | .ok none =>
          .ok (conflictMarkers ctx z1 z2 a1 a2 b1 b2, true, 1)
      else
        .ok (conflictMarkers ctx z1 z2 a1 a2 b1 b2, true, 1)

/-- Rendering of a whole region stream, accumulating the `conflicts` flag
and `conflictscount`. -/
def renderList (ctx : RenderCtx) :
    List Region → Except MergeErr (List (Bool × Tok) × Bool × Nat)
  | [] => .ok ([], false, 0)
  | r :: rest => do
    let (c, s, n) ← renderRegion ctx r
    let (ts, f, m) ← renderList ctx rest
    .ok (c ++ ts, s || f, n + m)

/-- The render context assembled by the prologue of `merge_lines`
(lines 145-158): composed markers, sniffed newline, force-side option
and the three token sequences. -/
def mkCtx (w : WordMergeMode)
    (wm : Tok → Tok → Tok → Except MergeErr (Option Tok))
    (opts : MergeOpts) (basetext atext btext : Tok) : RenderCtx :=
  { w := w, wm := wm
    startm := composeMarker opts.start_marker opts.name_a
    midm := opts.mid_marker
    endm := composeMarker opts.end_marker opts.name_b
    basem := composeMarker opts.base_marker opts.name_base
    newline := sniffNewline (splitFor w atext)
    lo := opts.localorother
    base := splitFor w basetext
    a := splitFor w atext
    b := splitFor w btext }

/-- Source `merge_lines` (parameterized by the matcher `M` and the
word-merge fallback `wm`): split, find sync regions, classify, optionally
minimize, render.  Returns the yielded tokens (tags stripped), the final
`self.conflicts` flag and `self.conflictscount`. -/
def merge_lines_core (M : Tok → Tok → List MBlock) (w : WordMergeMode)
    (wm : Tok → Tok → Tok → Except MergeErr (Option Tok))
    (opts : MergeOpts) (basetext atext btext : Tok) :
    Except MergeErr (List Tok × Bool × Nat) := do
  let regs ← mergeRegionsLoop (splitFor w atext) (splitFor w btext)
    (splitFor w basetext) (find_sync_regions M w basetext atext btext) 0 0 0
  let regs2 := if opts.minimize then
    minimize (splitFor w atext) (splitFor w btext) regs
  else regs
  let (out, f, n) ← renderList (mkCtx w wm opts basetext atext btext) regs2
  .ok (out.map Prod.snd, f, n)

/-- The word-merge fallback slot used by the inner, enforced merge.  The
enforced renderer raises before ever consulting it (theorem `c8`). -/
def noWordMerge : Tok → Tok → Tok → Except MergeErr (Option Tok) :=
  fun _ _ _ => .ok none

/-- Source `trywordmerge` (lines 81-89): run an enforced word merge and
catch (only) `CantShowWordConflicts`, returning `none` for it. -/
def trywordmerge (M : Tok → Tok → List MBlock)
    (basetext atext btext : Tok) : Except MergeErr (Option Tok) :=
  match merge_lines_core M WordMergeMode.enforced noWordMerge {}
      basetext atext btext with
  | .ok (toks, _, _) => .ok (some (joinl toks))
  | .error .cantShowWordConflicts => .ok none
  | .error e => .error e

/-- Source `merge_lines` with the real word-merge fallback wired in. -/
def merge_lines (M : Tok → Tok → List MBlock) (w : WordMergeMode)
    (opts : MergeOpts) (basetext atext btext : Tok) :
    Except MergeErr (List Tok × Bool × Nat) :=
  merge_lines_core M w (trywordmerge M) opts basetext atext btext

/-! ## Helper lemmas -/

theorem slice_get? (l : List Tok) (i j m : Nat) :
    (slice l i j).get? m = if i + m < j then l.get? (i + m) else none := by
  unfold slice
  rw [List.get?_drop]
  by_cases h : i + m < j
  · rw [List.get?_take h, if_pos h]
  · rw [if_neg h, List.get?_eq_none]
    calc (l.take j).length ≤ j := by
          rw [List.length_take]; exact min_le_left _ _
      _ ≤ i + m := by omega

theorem compare_range_iff (a b : List Tok) (i j k l : Nat) :
    compare_range a i j b k l = true ↔
      ((j : Int) - (i : Int) = (l : Int) - (k : Int) ∧
        ∀ m < j - i, a.get? (i + m) = b.get? (k + m)) := by
  unfold compare_range
  by_cases h : ((j : Int) - (i : Int)) ≠ ((l : Int) - (k : Int))
  · simp only [if_pos h]
    constructor
    · intro hc; exact absurd hc (Bool.false_ne_true)
    · intro hc; exact absurd hc.1 h
  · simp only [if_neg h]
    push_neg at h
    rw [List.all_eq_true]
    constructor
    · intro hall
      refine ⟨h, fun m hm => ?_⟩
      have := hall m (List.mem_range.mpr hm)
      exact eq_of_beq this
    · intro ⟨_, hpt⟩ m hm
      exact beq_iff_eq.mpr (hpt m (List.mem_range.mp hm))

theorem compare_range_refl (a : List Tok) (i j : Nat) :
    compare_range a i j a i j = true := by
  rw [compare_range_iff]
  exact ⟨rfl, fun m _ => rfl⟩

theorem compare_range_slice {a b : List Tok} {i j k l : Nat}
    (h : compare_range a i j b k l = true) : slice a i j = slice b k l := by
  rw [compare_range_iff] at h
  obtain ⟨hlen, hpt⟩ := h
  apply List.ext
  intro m
  rw [slice_get?, slice_get?]
  by_cases hm : i + m < j
  · rw [if_pos hm, if_pos (by omega), hpt m (by omega)]
  · rw [if_neg hm, if_neg (by omega)]

/-- Transitivity through the base: the heart of claim C4. -/
theorem compare_range_trans {a b base : List Tok} {ia am ib bm iz zm : Nat}
    (ha : compare_range a ia am base iz zm = true)
    (hb : compare_range b ib bm base iz zm = true) :
    compare_range a ia am b ib bm = true := by
  rw [compare_range_iff] at ha hb ⊢
  obtain ⟨hla, hpa⟩ := ha
  obtain ⟨hlb, hpb⟩ := hb
  refine ⟨by omega, fun m hm => ?_⟩
  rw [hpa m hm, hpb m (by omega)]

theorem slice_append (l : List Tok) {i j k : Nat} (hij : i ≤ j)
    (hjk : j ≤ k) : slice l i j ++ slice l j k = slice l i k := by
  have hlen : (slice l i j).length = min j (l.length) - i := by
    unfold slice; rw [List.length_drop, List.length_take]
  rw [min_def] at hlen
  apply List.ext
  intro m
  rw [slice_get?]
  rcases Nat.lt_or_ge m (slice l i j).length with hm | hm
  · rw [List.get?_append hm]
    split_ifs at hlen with hjl
    · rw [slice_get?]
      have h1 : i + m < j := by omega
      rw [if_pos h1, if_pos (by omega)]
    · rw [slice_get?]
      rw [if_pos (by omega), if_pos (by omega)]
  · rw [List.get?_append_right hm]
    rw [slice_get?]
    split_ifs at hlen with hjl
    · by_cases h1 : j + (m - (slice l i j).length) < k
      · rw [if_pos h1, if_pos (by omega)]
        congr 1
        omega
      · rw [if_neg h1, if_neg (by omega)]
    · by_cases h1 : j + (m - (slice l i j).length) < k
      · rw [if_pos h1]
        by_cases h2 : i + m < k
        · rw [if_pos h2]
          have h3 : l.get? (j + (m - (slice l i j).length)) = none :=
            List.get?_eq_none.mpr (by omega)
          have h4 : l.get? (i + m) = none := List.get?_eq_none.mpr (by omega)
          rw [h3, h4]
        · rw [if_neg h2]
          exact List.get?_eq_none.mpr (by omega)
      · rw [if_neg h1]
        by_cases h2 : i + m < k
        · rw [if_pos h2]
          exact (List.get?_eq_none.mpr (by omega)).symm
        · rw [if_neg h2]

theorem slice_len_le {l : List Tok} {i j : Nat} :
    (slice l i j).length ≤ j - i := by
  unfold slice; rw [List.length_drop, List.length_take]; omega

theorem slice_eq_nil {l : List Tok} {i j : Nat} (h : j ≤ i) :
    slice l i j = [] := by
  apply List.eq_nil_of_length_eq_zero
  have := slice_len_le (l := l) (i := i) (j := j)
  omega

/-- `renderList` distributes over list append. -/
theorem renderList_append {ctx : RenderCtx} {l1 l2 : List Region}
    {o1 o2 : List (Bool × Tok)} {f1 f2 : Bool} {n1 n2 : Nat}
    (h1 : renderList ctx l1 = .ok (o1, f1, n1))
    (h2 : renderList ctx l2 = .ok (o2, f2, n2)) :
    renderList ctx (l1 ++ l2) = .ok (o1 ++ o2, f1 || f2, n1 + n2) := by
  induction l1 generalizing o1 f1 n1 with
  | nil =>
    simp only [renderList] at h1
    cases h1
    simpa using h2
  | cons r rest ih =>
    simp only [renderList, bind, Except.bind] at h1 ⊢
    cases hr : renderRegion ctx r with
    | error e => rw [hr] at h1; exact absurd h1 (by simp)
    | ok v =>
      rw [hr] at h1
      obtain ⟨c, s, n⟩ := v
      simp only at h1
      cases hrest : renderList ctx rest with
      | error e => rw [hrest] at h1; exact absurd h1 (by simp)
      | ok v2 =>
        rw [hrest] at h1
        obtain ⟨ts, f, m⟩ := v2
        simp only [Except.ok.injEq, Prod.mk.injEq] at h1
        obtain ⟨ho, hf, hn⟩ := h1
        rw [show rest.append l2 = rest ++ l2 from rfl, ih hrest]
        simp only [Except.ok.injEq, Prod.mk.injEq]
        subst ho hf hn
        exact ⟨by simp, by simp [Bool.or_assoc], by omega⟩

/-- The gap classifier never fails: its final-else is unreachable. -/
theorem classifyGap_isOk (a b base : List Tok) (iz ia ib zm am bm : Nat) :
    ∃ g, classifyGap a b base iz ia ib zm am bm = .ok g := by
  unfold classifyGap
  split_ifs with h0 hs hab hba hnn
  · exact ⟨_, rfl⟩
  · exact ⟨_, rfl⟩
  · exact ⟨_, rfl⟩
  · exact ⟨_, rfl⟩
  · exfalso
    have hEA : compare_range a ia am base iz zm = true ∧
        compare_range b ib bm base iz zm = true := by tauto
    exact hs (compare_range_trans hEA.1 hEA.2)
  · exact ⟨_, rfl⟩

/-- C4: in the region classifier, the case `equal_a && equal_b` with
`same == false` is unreachable, by transitivity of token-sequence
equality; `merge_regions` can never end in the final-else
`AssertionError("can't handle a=b=base but unmatched")`, whatever sync
regions and cursors it is given. -/
theorem c4 (a b base : List Tok) (syncs : List Sync) (iz ia ib : Nat) :
    mergeRegionsLoop a b base syncs iz ia ib ≠ .error .cantHandleSame := by
  induction syncs generalizing iz ia ib with
  | nil => simp [mergeRegionsLoop]
  | cons s rest ih =>
    simp only [mergeRegionsLoop]
    split_ifs with h1 h2 h3
    · obtain ⟨g, hg⟩ := classifyGap_isOk a b base iz ia ib s.z1 s.a1 s.b1
      intro hc
      rw [hg] at hc
      cases hrec : mergeRegionsLoop a b base rest s.z2 s.a2 s.b2 with
      | error e =>
        rw [hrec] at hc
        have he : (Except.error e : Except MergeErr (List Region)) =
            Except.error MergeErr.cantHandleSame := hc
        exact ih s.z2 s.a2 s.b2 (hrec.trans (by rw [Except.error.inj he]))
      | ok v =>
        rw [hrec] at hc
        exact Except.noConfusion hc
    · obtain ⟨g, hg⟩ := classifyGap_isOk a b base iz ia ib s.z1 s.a1 s.b1
      intro hc
      rw [hg] at hc
      cases hrec : mergeRegionsLoop a b base rest s.z1 s.a1 s.b1 with
      | error e =>
        rw [hrec] at hc
        have he : (Except.error e : Except MergeErr (List Region)) =
            Except.error MergeErr.cantHandleSame := hc
        exact ih s.z1 s.a1 s.b1 (hrec.trans (by rw [Except.error.inj he]))
      | ok v =>
        rw [hrec] at hc
        exact Except.noConfusion hc
    · simp
    · simp

/-- In enforced mode the renderer never consults the word-merge fallback
slot: its result does not depend on it. -/
theorem renderRegion_wm_eq
    (wm1 wm2 : Tok → Tok → Tok → Except MergeErr (Option Tok))
    (sm mm em bm : Option Tok) (nl : Tok) (lo : Option Side)
    (B A Bb : List Tok) (r : Region) :
    renderRegion ⟨WordMergeMode.enforced, wm1, sm, mm, em, bm, nl, lo, B, A, Bb⟩ r
      = renderRegion ⟨WordMergeMode.enforced, wm2, sm, mm, em, bm, nl, lo, B, A, Bb⟩ r := by
  cases r <;> rfl

theorem renderList_wm_eq
    (wm1 wm2 : Tok → Tok → Tok → Except MergeErr (Option Tok))
    (sm mm em bm : Option Tok) (nl : Tok) (lo : Option Side)
    (B A Bb : List Tok) (rs : List Region) :
    renderList ⟨WordMergeMode.enforced, wm1, sm, mm, em, bm, nl, lo, B, A, Bb⟩ rs
      = renderList ⟨WordMergeMode.enforced, wm2, sm, mm, em, bm, nl, lo, B, A, Bb⟩ rs := by
  induction rs with
  | nil => rfl
  | cons r rest ih =>
    simp only [renderList]
    rw [renderRegion_wm_eq wm1 wm2 sm mm em bm nl lo B A Bb r, ih]

/-- C8: the word-merge recursion has depth at most two.  A merge in
enforced mode raises `CantShowWordConflicts` on reaching a conflict
region (no force side) instead of invoking the word-merge fallback, and
its whole result is independent of the fallback that is wired in, so the
inner merge launched by `trywordmerge` never launches another merge. -/
theorem c8 (M : Tok → Tok → List MBlock)
    (wm : Tok → Tok → Tok → Except MergeErr (Option Tok)) (opts : MergeOpts)
    (x y z : Tok) (c : RenderCtx) (hw : c.w = WordMergeMode.enforced)
    (hlo : c.lo = none) (z1 z2 a1 a2 b1 b2 : Nat) :
    merge_lines_core M WordMergeMode.enforced wm opts x y z
      = merge_lines_core M WordMergeMode.enforced noWordMerge opts x y z ∧
    renderRegion c (Region.conflict z1 z2 a1 a2 b1 b2)
      = .error .cantShowWordConflicts := by
  constructor
  · simp only [merge_lines_core, mkCtx]
    cases hregs : mergeRegionsLoop (splitFor WordMergeMode.enforced y)
        (splitFor WordMergeMode.enforced z) (splitFor WordMergeMode.enforced x)
        (find_sync_regions M WordMergeMode.enforced x y z) 0 0 0 with
    | error e => rfl
    | ok regs =>
      simp only [bind, Except.bind]
      rw [renderList_wm_eq wm noWordMerge]
  · simp [renderRegion, hlo, hw]

/-- C7: `trywordmerge` returns the concatenated merged bytes when the
inner enforced merge succeeds, returns `None` exactly when the inner
merge raises `CantShowWordConflicts`, and lets every other error kind
propagate. -/
theorem c7 (M : Tok → Tok → List MBlock) (x y z : Tok) :
    (∀ toks f n,
      merge_lines_core M WordMergeMode.enforced noWordMerge {} x y z
        = .ok (toks, f, n) →
      trywordmerge M x y z = .ok (some (joinl toks))) ∧
    (trywordmerge M x y z = .ok none ↔
      merge_lines_core M WordMergeMode.enforced noWordMerge {} x y z
        = .error .cantShowWordConflicts) ∧
    (∀ e, e ≠ MergeErr.cantShowWordConflicts →
      merge_lines_core M WordMergeMode.enforced noWordMerge {} x y z
        = .error e →
      trywordmerge M x y z = .error e) := by
  refine ⟨?_, ?_, ?_⟩
  · intro toks f n h
    simp [trywordmerge, h]
  · constructor
    · intro h
      cases hm : merge_lines_core M WordMergeMode.enforced noWordMerge {}
          x y z with
      | ok v =>
        obtain ⟨t, f, n⟩ := v
        simp [trywordmerge, hm] at h
      | error e =>
        cases e with
        | cantShowWordConflicts => rfl
        | assertMatchlen => simp [trywordmerge, hm] at h
        | assertMonotone => simp [trywordmerge, hm] at h
        | cantHandleSame => simp [trywordmerge, hm] at h
    · intro h
      simp [trywordmerge, h]
  · intro e he h
    cases e with
    | cantShowWordConflicts => exact absurd rfl he
    | assertMatchlen => simp [trywordmerge, h]
    | assertMonotone => simp [trywordmerge, h]
    | cantHandleSame => simp [trywordmerge, h]

/-- Every successfully rendered region sets the `conflicts` flag iff it
bumps the counter (and the bump is exactly one). -/
theorem renderRegion_flag {ctx : RenderCtx} {r : Region}
    {c : List (Bool × Tok)} {s : Bool} {n : Nat}
    (h : renderRegion ctx r = .ok (c, s, n)) : s = true ↔ 0 < n := by
  cases r with
  | unchanged i j =>
    simp only [renderRegion, Except.ok.injEq, Prod.mk.injEq] at h
    obtain ⟨-, hs, hn⟩ := h
    simp [← hs, ← hn]
  | same i j =>
    simp only [renderRegion, Except.ok.injEq, Prod.mk.injEq] at h
    obtain ⟨-, hs, hn⟩ := h
    simp [← hs, ← hn]
  | sidea i j =>
    simp only [renderRegion, Except.ok.injEq, Prod.mk.injEq] at h
    obtain ⟨-, hs, hn⟩ := h
    simp [← hs, ← hn]
  | sideb i j =>
    simp only [renderRegion, Except.ok.injEq, Prod.mk.injEq] at h
    obtain ⟨-, hs, hn⟩ := h
    simp [← hs, ← hn]
  | conflict z1 z2 a1 a2 b1 b2 =>
    simp only [renderRegion] at h
    rcases hlo : ctx.lo with _ | s'
    · rw [hlo] at h
      simp only at h
      split_ifs at h with h1 h2
      · rcases hwm : ctx.wm (joinl (slice ctx.base z1 z2))
            (joinl (slice ctx.a a1 a2)) (joinl (slice ctx.b b1 b2))
          with e | o
        · rw [hwm] at h
          exact absurd h (by simp)
        · rw [hwm] at h
          rcases o with _ | text
          · cases Except.ok.inj h
            simp
          · simp only at h
            split_ifs at h with h3 <;> (cases Except.ok.inj h; simp)
      · cases Except.ok.inj h
        simp
    · rw [hlo] at h
      cases s' <;> (cases Except.ok.inj h; simp)

/-- With a force side set, every region renders without error, without
setting the flag and without bumping the counter. -/
theorem renderRegion_lo {ctx : RenderCtx} {s' : Side}
    (hlo : ctx.lo = some s') (r : Region) :
    ∃ c, renderRegion ctx r = .ok (c, false, 0) := by
  cases r with
  | unchanged i j => exact ⟨_, rfl⟩
  | same i j => exact ⟨_, rfl⟩
  | sidea i j => exact ⟨_, rfl⟩
  | sideb i j => exact ⟨_, rfl⟩
  | conflict z1 z2 a1 a2 b1 b2 =>
    simp only [renderRegion, hlo]
    cases s' <;> exact ⟨_, rfl⟩

/-- After rendering a whole region stream, the flag holds iff the counter
is positive. -/
theorem renderList_flag {ctx : RenderCtx} {rs : List Region}
    {o : List (Bool × Tok)} {f : Bool} {n : Nat}
    (h : renderList ctx rs = .ok (o, f, n)) : f = true ↔ 0 < n := by
  induction rs generalizing o f n with
  | nil =>
    simp only [renderList, Except.ok.injEq, Prod.mk.injEq] at h
    obtain ⟨-, hf, hn⟩ := h
    simp [← hf, ← hn]
  | cons r rest ih =>
    simp only [renderList] at h
    cases hr : renderRegion ctx r with
    | error e =>
      rw [hr] at h
      exact absurd h (by simp [bind, Except.bind])
    | ok v =>
      rw [hr] at h
      obtain ⟨c, s, m⟩ := v
      cases hrest : renderList ctx rest with
      | error e =>
        rw [hrest] at h
        exact absurd h (by simp [bind, Except.bind])
      | ok v2 =>
        rw [hrest] at h
        obtain ⟨ts, f2, m2⟩ := v2
        have h' : ((c ++ ts : List (Bool × Tok)), s || f2, m + m2)
            = (o, f, n) := by
          have hok : (Except.ok ((c ++ ts : List (Bool × Tok)), s || f2, m + m2)
              : Except MergeErr _) = .ok (o, f, n) := h
          exact Except.ok.inj hok
        have e1 := renderRegion_flag hr
        have e2 := ih hrest
        cases h'
        cases s <;> cases f2 <;> simp_all

/-- With a force side set, rendering a whole stream succeeds with the
flag `false` and count `0`. -/
theorem renderList_lo {ctx : RenderCtx} {s' : Side}
    (hlo : ctx.lo = some s') (rs : List Region) :
    ∃ o, renderList ctx rs = .ok (o, false, 0) := by
  induction rs with
  | nil => exact ⟨_, rfl⟩
  | cons r rest ih =>
    obtain ⟨c, hc⟩ := renderRegion_lo hlo r
    obtain ⟨o, ho⟩ := ih
    refine ⟨c ++ o, ?_⟩
    simp only [renderList, hc, ho, bind, Except.bind]
    rfl

/-- Inversion of a successful `merge_lines_core` run: the classified
(and optionally minimized) region stream rendered successfully with the
same flag and count. -/
theorem merge_lines_core_inv {M : Tok → Tok → List MBlock}
    {w : WordMergeMode} {wm : Tok → Tok → Tok → Except MergeErr (Option Tok)}
    {opts : MergeOpts} {x y z : Tok} {out : List Tok} {f : Bool} {n : Nat}
    (h : merge_lines_core M w wm opts x y z = .ok (out, f, n)) :
    ∃ regs o,
      mergeRegionsLoop (splitFor w y) (splitFor w z) (splitFor w x)
        (find_sync_regions M w x y z) 0 0 0 = .ok regs ∧
      renderList (mkCtx w wm opts x y z)
        (if opts.minimize then minimize (splitFor w y) (splitFor w z) regs
         else regs) = .ok (o, f, n) ∧
      out = o.map Prod.snd := by
  simp only [merge_lines_core] at h
  cases hregs : mergeRegionsLoop (splitFor w y) (splitFor w z) (splitFor w x)
      (find_sync_regions M w x y z) 0 0 0 with
  | error e =>
    rw [hregs] at h
    exact Except.noConfusion h
  | ok regs =>
    rw [hregs] at h
    simp only [bind, Except.bind] at h
    cases hrl : renderList (mkCtx w wm opts x y z)
        (if opts.minimize then minimize (splitFor w y) (splitFor w z) regs
         else regs) with
    | error e =>
      rw [hrl] at h
      exact Except.noConfusion h
    | ok v =>
      obtain ⟨o, f', n'⟩ := v
      rw [hrl] at h
      have h' : ((o.map Prod.snd : List Tok), f', n') = (out, f, n) :=
        Except.ok.inj h
      simp only [Prod.mk.injEq] at h'
      obtain ⟨h1, h2, h3⟩ := h'
      exact ⟨regs, o, rfl, by rw [hrl, h2, h3], h1.symm⟩

/-- C10: once `merge_lines` has been fully consumed without raising, the
`conflicts` flag is true iff `conflictscount` is positive; and when a
force side (`localorother`) is set, the flag stays false and the count
stays zero. -/
theorem c10 (M : Tok → Tok → List MBlock) (w : WordMergeMode)
    (opts : MergeOpts) (x y z : Tok) :
    (∀ out f n, merge_lines M w opts x y z = .ok (out, f, n) →
      (f = true ↔ 0 < n)) ∧
    (∀ s' out f n, opts.localorother = some s' →
      merge_lines M w opts x y z = .ok (out, f, n) →
      f = false ∧ n = 0) := by
  constructor
  · intro out f n h
    obtain ⟨regs, o, -, hrl, -⟩ := merge_lines_core_inv h
    exact renderList_flag hrl
  · intro s' out f n hlo h
    obtain ⟨regs, o, -, hrl, -⟩ := merge_lines_core_inv h
    have hctx : (mkCtx w (trywordmerge M) opts x y z).lo = some s' := by
      simp [mkCtx, hlo]
    obtain ⟨o2, ho2⟩ := renderList_lo hctx
      (if opts.minimize then minimize (splitFor w y) (splitFor w z) regs
       else regs)
    rw [hrl] at ho2
    have h' : ((o : List (Bool × Tok)), f, n) = (o2, false, 0) :=
      Except.ok.inj ho2
    simp only [Prod.mk.injEq] at h'
    exact ⟨h'.2.1, h'.2.2⟩

/-- C6: for `base = "one\n"`, `a = "two\n"`, `b = "three\n"` with default
markers, word merge disabled and no force side, the output of
`merge_lines` is exactly the marker block
`<<<<<<<\n two\n =======\n three\n >>>>>>>\n` and the conflict count is
1. -/
theorem c6 :
    merge_lines get_matching_blocks WordMergeMode.disabled {}
      (bs "one\n") (bs "two\n") (bs "three\n")
    = .ok ([bs "<<<<<<<\n", bs "two\n", bs "=======\n", bs "three\n",
        bs ">>>>>>>\n"], true, 1) ∧
    joinl [bs "<<<<<<<\n", bs "two\n", bs "=======\n", bs "three\n",
        bs ">>>>>>>\n"] = bs "<<<<<<<\ntwo\n=======\nthree\n>>>>>>>\n" := by
  exact ⟨rfl, rfl⟩

/-- C3 fails on the code: for `base = "X\n"`, `a = "P\nX\n"`, `b = "P\n"`
in ondemand mode with minimize, the minimized stream contains the
conflict region `(0,1, 1,2, 1,1)`, the recursive word merge on that
region succeeds (returning `Some b""`), and yet `merge_lines` emits
markers and counts one conflict, because line 190 tests the truthiness of
the returned bytes rather than `is not None`. -/
theorem c3_counterexample :
    merge_regions get_matching_blocks WordMergeMode.ondemand
      (bs "X\n") (bs "P\nX\n") (bs "P\n")
      = .ok [Region.conflict 0 1 0 2 0 1] ∧
    minimize (splitnewlines (bs "P\nX\n")) (splitnewlines (bs "P\n"))
      [Region.conflict 0 1 0 2 0 1]
      = [Region.same 0 1, Region.conflict 0 1 1 2 1 1] ∧
    trywordmerge get_matching_blocks
      (joinl (slice (splitnewlines (bs "X\n")) 0 1))
      (joinl (slice (splitnewlines (bs "P\nX\n")) 1 2))
      (joinl (slice (splitnewlines (bs "P\n")) 1 1))
      = .ok (some []) ∧
    merge_lines get_matching_blocks WordMergeMode.ondemand
      {minimize := true} (bs "X\n") (bs "P\nX\n") (bs "P\n")
      = .ok ([bs "P\n", bs "<<<<<<<\n", bs "X\n", bs "=======\n",
          bs ">>>>>>>\n"], true, 1) := by
  exact ⟨rfl, rfl, rfl, rfl⟩

/-- C3, amended: in ondemand mode, for every conflict region on which the
recursive word merge succeeds *with a non-empty result*, the renderer
emits the word-merged result split on line terminators, emits no markers
and does not bump the conflict count. -/
theorem c3_amended (ctx : RenderCtx) (z1 z2 a1 a2 b1 b2 : Nat) (text : Tok)
    (hw : ctx.w = WordMergeMode.ondemand) (hlo : ctx.lo = none)
    (hwm : ctx.wm (joinl (slice ctx.base z1 z2))
      (joinl (slice ctx.a a1 a2)) (joinl (slice ctx.b b1 b2))
      = .ok (some text))
    (hne : text ≠ []) :
    renderRegion ctx (Region.conflict z1 z2 a1 a2 b1 b2)
      = .ok ((splitnewlines text).map (fun t => (false, t)), false, 0) := by
  simp only [renderRegion, hlo, hw, hwm]
  simp [hne]

/-- Helper word-merge fallback used to witness `c3_amended`. -/
def wmConst : Tok → Tok → Tok → Except MergeErr (Option Tok) :=
  fun _ _ _ => .ok (some (bs "Z\n"))

theorem c3_amended_witness :
    renderRegion ⟨WordMergeMode.ondemand, wmConst, none, none, none, none,
        [10], none, [bs "X\n"], [bs "Y\n"], [bs "W\n"]⟩
      (Region.conflict 0 1 0 1 0 1)
      = .ok ((splitnewlines (bs "Z\n")).map (fun t => (false, t)),
          false, 0) :=
  c3_amended _ 0 1 0 1 0 1 (bs "Z\n") rfl rfl rfl (by decide)

/-! ### C9: tokens of `splitwordswithoutemptylines` -/

/-- Word tokens are never empty. -/
theorem splitwGo_ne_nil (x : List Nat) (cur : Tok) (cls : Bool) :
    ∀ t ∈ splitwGo x cur cls, t ≠ [] := by
  induction x generalizing cur cls with
  | nil =>
    intro t ht
    simp only [splitwGo] at ht
    split_ifs at ht with h
    · exact absurd ht (List.not_mem_nil t)
    · rw [List.mem_singleton] at ht
      rw [ht]; exact h
  | cons c rest ih =>
    intro t ht
    simp only [splitwGo] at ht
    by_cases h1 : c = 10
    · rw [if_pos h1] at ht
      by_cases h2 : cur = []
      · rw [if_pos h2] at ht
        simp only [List.nil_append] at ht
        rcases List.mem_cons.mp ht with he | hm
        · rw [he]; simp
        · exact ih [] false t hm
      · rw [if_neg h2] at ht
        rcases List.mem_append.mp ht with hl | hr
        · rw [List.mem_singleton] at hl
          rw [hl]; exact h2
        · rcases List.mem_cons.mp hr with he | hm
          · rw [he]; simp
          · exact ih [] false t hm
    · rw [if_neg h1] at ht
      by_cases h2 : cur = []
      · rw [if_pos h2] at ht
        exact ih [c] (isWS c) t ht
      · rw [if_neg h2] at ht
        by_cases h3 : isWS c = cls
        · rw [if_pos h3] at ht
          exact ih (cur ++ [c]) cls t ht
        · rw [if_neg h3] at ht
          rcases List.mem_cons.mp ht with he | hm
          · rw [he]; exact h2
          · exact ih [c] (isWS c) t hm

theorem splitwords_ne_nil (text : Tok) : ∀ t ∈ splitwords text, t ≠ [] :=
  splitwGo_ne_nil text [] false

/-- Concatenating a group whose first word is non-empty and not `"\n"`
cannot give `"\n"`. -/
theorem joinl_head_ne {h : Tok} (rest : List Tok) (hne : h ≠ [])
    (h10 : h ≠ [10]) : joinl (h :: rest) ≠ [10] := by
  intro heq
  have hj : joinl (h :: rest) = h ++ joinl rest := by
    simp [joinl]
  rw [hj] at heq
  have hlen := congrArg List.length heq
  simp only [List.length_append, List.length_cons, List.length_nil] at hlen
  have hh : h.length = 1 := by
    rcases h with _ | ⟨c, h'⟩
    · exact absurd rfl hne
    · simp only [List.length_cons] at hlen ⊢
      omega
  have hr : (joinl rest).length = 0 := by omega
  rw [List.length_eq_zero] at hr
  rw [hr, List.append_nil] at heq
  exact h10 heq

/-- Tokens of `swelGo` are never `"\n"` when the pending group starts
with a non-empty word different from `"\n"`. -/
theorem swelGo_all : ∀ (ws buf : List Tok) (h : Tok),
    (∀ w ∈ ws, w ≠ []) → buf.head? = some h → h ≠ [] → h ≠ [10] →
    ∀ t ∈ swelGo ws buf, t ≠ [10] := by
  intro ws
  induction ws with
  | nil =>
    intro buf h hws hhead hne h10 t ht
    rcases buf with _ | ⟨b0, buf'⟩
    · exact absurd hhead (by simp)
    · have hb0 : b0 = h := by
        simp only [List.head?_cons, Option.some.injEq] at hhead
        exact hhead
      subst hb0
      simp only [swelGo] at ht
      rw [if_neg (by simp)] at ht
      rw [List.mem_singleton] at ht
      rw [ht]
      exact joinl_head_ne buf' hne h10
  | cons w ws ih =>
    intro buf h hws hhead hne h10 t ht
    simp only [swelGo] at ht
    split_ifs at ht with h1
    · rcases List.mem_cons.mp ht with he | hm
      · rcases buf with _ | ⟨b0, buf'⟩
        · exact absurd h1.2 (by simp)
        · have hb0 : b0 = h := by
            simp only [List.head?_cons, Option.some.injEq] at hhead
            exact hhead
          subst hb0
          rw [he]
          exact joinl_head_ne buf' hne h10
      · exact ih [w] w (fun v hv => hws v (List.mem_cons_of_mem w hv))
          (by simp) (hws w (List.mem_cons_self w ws)) h1.1 t hm
    · rcases buf with _ | ⟨b0, buf'⟩
      · exact absurd hhead (by simp)
      · have hb0 : b0 = h := by
          simp only [List.head?_cons, Option.some.injEq] at hhead
          exact hhead
        subst hb0
        exact ih ((b0 :: buf') ++ [w]) b0
          (fun v hv => hws v (List.mem_cons_of_mem w hv))
          (by simp) hne h10 t ht

/-- All tokens of `swelGo` after the first differ from `"\n"`. -/
theorem swelGo_drop : ∀ (ws buf : List Tok), (∀ w ∈ ws, w ≠ []) →
    ∀ t ∈ (swelGo ws buf).drop 1, t ≠ [10] := by
  intro ws
  induction ws with
  | nil =>
    intro buf hws t ht
    simp only [swelGo] at ht
    split_ifs at ht <;> simp at ht
  | cons w ws ih =>
    intro buf hws t ht
    simp only [swelGo] at ht
    split_ifs at ht with h1
    · simp only [List.drop_succ_cons, List.drop_zero] at ht
      exact swelGo_all ws [w] w
        (fun v hv => hws v (List.mem_cons_of_mem w hv)) (by simp)
        (hws w (List.mem_cons_self w ws)) h1.1 t ht
    · exact ih (buf ++ [w]) (fun v hv => hws v (List.mem_cons_of_mem w hv))
        t ht

/-- C9 fails on the code: for the buffer `"\n"`, the word-with-folded-
newlines tokenization yields the single token `"\n"` itself — a leading
lone newline has no preceding token to fold into. -/
theorem c9_counterexample :
    ¬ (∀ t ∈ splitwordswithoutemptylines (bs "\n"), t ≠ bs "\n") := by
  decide

/-- C9, amended: every token of `splitwordswithoutemptylines` except
possibly the first differs from `"\n"`: a lone newline is folded into the
preceding token whenever one exists. -/
theorem c9_amended (text : Tok) :
    ∀ t ∈ (splitwordswithoutemptylines text).drop 1, t ≠ [10] :=
  swelGo_drop (splitwords text) [] (splitwords_ne_nil text)

theorem c7_witness :
    trywordmerge get_matching_blocks (bs "one\n") (bs "two\n")
      (bs "three\n") = .ok none :=
  ((c7 get_matching_blocks (bs "one\n") (bs "two\n") (bs "three\n")).2.1).mpr
    rfl

theorem c8_witness :
    merge_lines_core get_matching_blocks WordMergeMode.enforced wmConst {}
        (bs "x\n") (bs "y\n") (bs "z\n")
      = merge_lines_core get_matching_blocks WordMergeMode.enforced
        noWordMerge {} (bs "x\n") (bs "y\n") (bs "z\n") ∧
    renderRegion ⟨WordMergeMode.enforced, noWordMerge, none, none, none,
        none, [10], none, [], [], []⟩ (Region.conflict 0 1 0 1 0 1)
      = .error .cantShowWordConflicts :=
  c8 get_matching_blocks wmConst {} (bs "x\n") (bs "y\n") (bs "z\n")
    ⟨WordMergeMode.enforced, noWordMerge, none, none, none, none, [10],
      none, [], [], []⟩ rfl rfl 0 1 0 1 0 1

theorem c10_witness :
    ((true : Bool) = true ↔ 0 < 1) ∧
    ((false : Bool) = false ∧ (0 : Nat) = 0) :=
  ⟨(c10 get_matching_blocks WordMergeMode.disabled {}
      (bs "one\n") (bs "two\n") (bs "three\n")).1
      [bs "<<<<<<<\n", bs "two\n", bs "=======\n", bs "three\n",
        bs ">>>>>>>\n"] true 1 rfl,
   (c10 get_matching_blocks WordMergeMode.disabled
      {localorother := some Side.sidelocal}
      (bs "one\n") (bs "two\n") (bs "three\n")).2
      Side.sidelocal [bs "two\n"] false 0 rfl rfl⟩

theorem c9_amended_witness : bs "b" ≠ [10] :=
  c9_amended (bs "a\nb") (bs "b") (by decide)

/-! ### C5: sync-region invariants -/

theorem intersect_some {a1 a2 b1 b2 sa sb : Nat}
    (h : intersect (a1, a2) (b1, b2) = some (sa, sb)) :
    a1 ≤ sa ∧ b1 ≤ sa ∧ sa < sb ∧ sb ≤ a2 ∧ sb ≤ b2 := by
  unfold intersect at h
  simp only at h
  split_ifs at h with hlt
  · simp only [Option.some.injEq, Prod.mk.injEq] at h
    obtain ⟨h1, h2⟩ := h
    subst h1
    subst h2
    exact ⟨le_max_left _ _, le_max_right _ _, hlt, min_le_left _ _,
      min_le_right _ _⟩

theorem slice_slice (l : List Tok) (i L d e : Nat) (he : e ≤ L) :
    slice (slice l i (i + L)) d e = slice l (i + d) (i + e) := by
  apply List.ext
  intro m
  rw [slice_get?, slice_get?, slice_get?]
  by_cases h1 : d + m < e
  · rw [if_pos h1, if_pos (by omega), if_pos (by omega)]
    congr 1
    omega
  · rw [if_neg h1, if_neg (by omega)]

/-- A matching block's slice equality transfers to any sub-range. -/
theorem sync_slice_eq {xs ys : List Tok} {kb ks kl : Nat}
    (h : slice xs kb (kb + kl) = slice ys ks (ks + kl))
    {sa sb : Nat} (h1 : kb ≤ sa) (h2 : sa ≤ sb) (h3 : sb ≤ kb + kl) :
    slice xs sa sb = slice ys (ks + (sa - kb)) (ks + (sa - kb) + (sb - sa)) := by
  have hs := slice_slice xs kb kl (sa - kb) (sb - kb) (by omega)
  have ht := slice_slice ys ks kl (sa - kb) (sb - kb) (by omega)
  rw [h] at hs
  rw [show kb + (sa - kb) = sa from by omega,
      show kb + (sb - kb) = sb from by omega] at hs
  rw [show ks + (sb - kb) = ks + (sa - kb) + (sb - sa) from by omega] at ht
  rw [← hs, ht]

/-- Every sync region produced by the `syncLoop` of `find_sync_regions`
satisfies the three-way slice equality and the length equalities, given
that each matching block's two slices are equal. -/
theorem syncLoop_slices {basetoks atoks btoks : List Tok} :
    ∀ (fuel : Nat) (A B : List MBlock),
    (∀ k ∈ A, slice basetoks k.base (k.base + k.len)
      = slice atoks k.side (k.side + k.len)) →
    (∀ k ∈ B, slice basetoks k.base (k.base + k.len)
      = slice btoks k.side (k.side + k.len)) →
    ∀ s ∈ syncLoop fuel A B,
      slice basetoks s.z1 s.z2 = slice atoks s.a1 s.a2 ∧
      slice basetoks s.z1 s.z2 = slice btoks s.b1 s.b2 ∧
      s.a2 - s.a1 = s.z2 - s.z1 ∧ s.b2 - s.b1 = s.z2 - s.z1 := by
  intro fuel
  induction fuel with
  | zero =>
    intro A B hA hB s hs
    exact absurd hs (by simp [syncLoop])
  | succ fuel ih =>
    intro A B hA hB s hs
    match A, B with
    | [], _ => exact absurd hs (by simp [syncLoop])
    | ka :: arest, [] => exact absurd hs (by simp [syncLoop])
    | ka :: arest, kb :: brest =>
      simp only [syncLoop] at hs
      rcases List.mem_append.mp hs with hm | hrec
      · -- the emitted sync (if the intersection is non-empty)
        rcases hint : intersect (ka.base, ka.base + ka.len)
            (kb.base, kb.base + kb.len) with _ | ⟨sa, sb⟩
        · rw [hint] at hm
          exact absurd hm (List.not_mem_nil s)
        · rw [hint] at hm
          rw [List.mem_singleton] at hm
          subst hm
          obtain ⟨hba, hbb, hlt, hea, heb⟩ := intersect_some hint
          have hka := hA ka (List.mem_cons_self ka arest)
          have hkb := hB kb (List.mem_cons_self kb brest)
          refine ⟨?_, ?_,
            show ka.side + (sa - ka.base) + (sb - sa)
                - (ka.side + (sa - ka.base)) = sb - sa from by omega,
            show kb.side + (sa - kb.base) + (sb - sa)
                - (kb.side + (sa - kb.base)) = sb - sa from by omega⟩
          · exact sync_slice_eq hka hba (Nat.le_of_lt hlt) hea
          · exact sync_slice_eq hkb hbb (Nat.le_of_lt hlt) heb
      · -- a sync from the remainder of the loop
        split_ifs at hrec with hadv
        · exact ih arest (kb :: brest)
            (fun k hk => hA k (List.mem_cons_of_mem ka hk)) hB s hrec
        · exact ih (ka :: arest) brest hA
            (fun k hk => hB k (List.mem_cons_of_mem kb hk)) s hrec

/-- C5: every sync region returned by `find_sync_regions` satisfies
`base[z1:z2] == a[a1:a2] == b[b1:b2]` with equal lengths
`z2-z1 == a2-a1 == b2-b1`, and the last element of the returned list is
the zero-length region `(|base|,|base|,|a|,|a|,|b|,|b|)`. -/
theorem c5 (M : Tok → Tok → List MBlock) (w : WordMergeMode) (x y z : Tok)
    (hA : ∀ k ∈ M (matchText w x) (matchText w y),
      slice (splitFor w x) k.base (k.base + k.len)
        = slice (splitFor w y) k.side (k.side + k.len))
    (hB : ∀ k ∈ M (matchText w x) (matchText w z),
      slice (splitFor w x) k.base (k.base + k.len)
        = slice (splitFor w z) k.side (k.side + k.len)) :
    (∀ s ∈ find_sync_regions M w x y z,
      slice (splitFor w x) s.z1 s.z2 = slice (splitFor w y) s.a1 s.a2 ∧
      slice (splitFor w x) s.z1 s.z2 = slice (splitFor w z) s.b1 s.b2 ∧
      s.a2 - s.a1 = s.z2 - s.z1 ∧ s.b2 - s.b1 = s.z2 - s.z1) ∧
    (find_sync_regions M w x y z).getLast?
      = some (Sync.mk (splitFor w x).length (splitFor w x).length
          (splitFor w y).length (splitFor w y).length
          (splitFor w z).length (splitFor w z).length) := by
  constructor
  · intro s hs
    unfold find_sync_regions at hs
    rcases List.mem_append.mp hs with hm | hf
    · exact syncLoop_slices _ _ _ hA hB s hm
    · rw [List.mem_singleton] at hf
      subst hf
      refine ⟨?_, ?_, by simp, by simp⟩
      · rw [slice_eq_nil (le_refl _), slice_eq_nil (le_refl _)]
      · rw [slice_eq_nil (le_refl _), slice_eq_nil (le_refl _)]
  · unfold find_sync_regions
    exact List.getLast?_concat _

/-- Witness for C5 on concrete inputs (spec scenario 1), with the
concrete spec-modelled matcher. -/
theorem c5_witness :
    (find_sync_regions get_matching_blocks WordMergeMode.disabled
        (bs "a\nb\nc\n") (bs "A\nb\nc\n") (bs "a\nb\nC\n")).getLast?
      = some (Sync.mk 3 3 3 3 3 3) :=
  (c5 get_matching_blocks WordMergeMode.disabled
    (bs "a\nb\nc\n") (bs "A\nb\nc\n") (bs "a\nb\nC\n")
    (by decide) (by decide)).2

/-! ### C2: minimize and marker placement -/

/-- The non-marker tokens of a tagged output stream. -/
def nonMarkers (l : List (Bool × Tok)) : List Tok :=
  (l.filter fun p => !p.1).map Prod.snd

theorem nonMarkers_append (l1 l2 : List (Bool × Tok)) :
    nonMarkers (l1 ++ l2) = nonMarkers l1 ++ nonMarkers l2 := by
  simp [nonMarkers]

theorem nonMarkers_content (l : List Tok) :
    nonMarkers (l.map fun t => (false, t)) = l := by
  induction l with
  | nil => rfl
  | cons t rest ih => simp [nonMarkers] at ih ⊢; exact ih

theorem nonMarkers_markerTok (m : Option Tok) (nl : Tok) :
    nonMarkers (match m with
      | some mk => [(true, mk ++ nl)]
      | none => []) = [] := by
  cases m <;> rfl

theorem nonMarkers_baseBlock (m : Option Tok) (nl : Tok) (l : List Tok) :
    nonMarkers (match m with
      | some mk => (true, mk ++ nl) :: l.map (fun t => (false, t))
      | none => [])
      = match m with | some _ => l | none => [] := by
  cases m with
  | none => rfl
  | some mk =>
    show nonMarkers ((true, mk ++ nl) :: l.map (fun t => (false, t))) = l
    have hdrop : nonMarkers ((true, mk ++ nl)
        :: l.map (fun t => (false, t)))
        = nonMarkers (l.map fun t => (false, t)) := by
      simp [nonMarkers]
    rw [hdrop, nonMarkers_content]

/-- The non-marker tokens of one conflict-marker block: the `a` side,
the base lines (when the base marker is enabled), then the `b` side. -/
theorem nonMarkers_conflictMarkers (ctx : RenderCtx)
    (z1 z2 a1 a2 b1 b2 : Nat) :
    nonMarkers (conflictMarkers ctx z1 z2 a1 a2 b1 b2)
      = slice ctx.a a1 a2
        ++ (match ctx.basem with
            | some _ => slice ctx.base z1 z2
            | none => [])
        ++ slice ctx.b b1 b2 := by
  unfold conflictMarkers
  rw [nonMarkers_append, nonMarkers_append, nonMarkers_append,
    nonMarkers_append, nonMarkers_append, nonMarkers_markerTok,
    nonMarkers_content, nonMarkers_baseBlock, nonMarkers_markerTok,
    nonMarkers_content, nonMarkers_markerTok]
  simp

/-- Predicate values below the length of a `takeWhile` over `range`. -/
theorem takeWhile_range_pred {p : Nat → Bool} {N k : Nat}
    (hk : k < ((List.range N).takeWhile p).length) : p k = true := by
  have hpre := List.takeWhile_prefix (l := List.range N) p
  have heq := List.prefix_iff_eq_take.mp hpre
  have hmem : k ∈ (List.range N).takeWhile p := by
    rw [heq, List.take_range, List.mem_range]
    have hle : ((List.range N).takeWhile p).length ≤ N := by
      have := hpre.length_le
      simpa using this
    omega
  exact List.mem_takeWhile_imp hmem

theorem frontMatches_le (a b : List Tok) (a1 b1 alen blen : Nat) :
    frontMatches a b a1 b1 alen blen ≤ min alen blen := by
  unfold frontMatches
  have := (List.takeWhile_prefix (l := List.range (min alen blen))
    (fun ii => a.get? (a1 + ii) == b.get? (b1 + ii))).length_le
  simpa using this

theorem endMatches_le (a b : List Tok) (a2 b2 alen blen : Nat) :
    endMatches a b a2 b2 alen blen ≤ min alen blen := by
  unfold endMatches
  have := (List.takeWhile_prefix (l := List.range (min alen blen))
    (fun ii => a.get? (a2 - ii - 1) == b.get? (b2 - ii - 1))).length_le
  simpa using this

theorem frontMatches_pt (a b : List Tok) (a1 b1 alen blen k : Nat)
    (hk : k < frontMatches a b a1 b1 alen blen) :
    a.get? (a1 + k) = b.get? (b1 + k) := by
  have := takeWhile_range_pred
    (p := fun ii => a.get? (a1 + ii) == b.get? (b1 + ii))
    (N := min alen blen) hk
  exact eq_of_beq this

theorem endMatches_pt (a b : List Tok) (a2 b2 alen blen k : Nat)
    (hk : k < endMatches a b a2 b2 alen blen) :
    a.get? (a2 - k - 1) = b.get? (b2 - k - 1) := by
  have := takeWhile_range_pred
    (p := fun ii => a.get? (a2 - ii - 1) == b.get? (b2 - ii - 1))
    (N := min alen blen) hk
  exact eq_of_beq this

/-- The matching front runs of a conflict are equal as token slices. -/
theorem frontMatches_slice (a b : List Tok) (a1 b1 alen blen : Nat) :
    slice a a1 (a1 + frontMatches a b a1 b1 alen blen)
      = slice b b1 (b1 + frontMatches a b a1 b1 alen blen) := by
  apply List.ext
  intro m
  rw [slice_get?, slice_get?]
  by_cases hm : m < frontMatches a b a1 b1 alen blen
  · rw [if_pos (by omega), if_pos (by omega)]
    exact frontMatches_pt a b a1 b1 alen blen m hm
  · rw [if_neg (by omega), if_neg (by omega)]

/-- The matching end runs of a conflict are equal as token slices
(provided the end indices dominate the run length). -/
theorem endMatches_slice (a b : List Tok) (a2 b2 alen blen e : Nat)
    (hee : e = endMatches a b a2 b2 alen blen)
    (ha : e ≤ a2) (hb : e ≤ b2) :
    slice a (a2 - e) a2 = slice b (b2 - e) b2 := by
  apply List.ext
  intro m
  rw [slice_get?, slice_get?]
  by_cases hm : m < e
  · rw [if_pos (by omega), if_pos (by omega)]
    have hpt := endMatches_pt a b a2 b2 alen blen (e - m - 1) (by omega)
    rw [show a2 - e + m = a2 - (e - m - 1) - 1 from by omega,
        show b2 - e + m = b2 - (e - m - 1) - 1 from by omega]
    exact hpt
  · rw [if_neg (by omega), if_neg (by omega)]

/-- The retained front plus interior of the `a` side of a minimized
conflict is a sublist of the original `a` side. -/
theorem preMid_sublist (a : List Tok) {i j s e : Nat} (hs : s ≤ j - i) :
    List.Sublist (slice a i (i + s) ++ slice a (i + s) (j - e))
      (slice a i j) := by
  by_cases hij : i ≤ j
  · by_cases hmid : i + s ≤ j - e
    · rw [slice_append a (by omega) (by omega)]
      have hsplit := slice_append a (i := i) (j := j - e) (k := j)
        (by omega) (by omega)
      rw [← hsplit]
      exact List.sublist_append_left _ _
    · rw [show slice a (i + s) (j - e) = ([] : List Tok) from
        slice_eq_nil (by omega), List.append_nil]
      have hsplit := slice_append a (i := i) (j := i + s) (k := j)
        (by omega) (by omega)
      rw [← hsplit]
      exact List.sublist_append_left _ _
  · have hs0 : s = 0 := by omega
    subst hs0
    rw [slice_eq_nil (by omega), slice_eq_nil (by omega)]
    simp

/-- The interior plus retained end of the `b` side of a minimized
conflict is a sublist of the original `b` side. -/
theorem midSuf_sublist (b : List Tok) {i j s e : Nat} (he : e ≤ j - i) :
    List.Sublist (slice b (i + s) (j - e) ++ slice b (j - e) j)
      (slice b i j) := by
  by_cases hij : i ≤ j
  · by_cases hmid : i + s ≤ j - e
    · rw [slice_append b (by omega) (by omega)]
      have hsplit := slice_append b (i := i) (j := i + s) (k := j)
        (by omega) (by omega)
      rw [← hsplit]
      exact List.sublist_append_right _ _
    · rw [show slice b (i + s) (j - e) = ([] : List Tok) from
        slice_eq_nil (by omega), List.nil_append]
      have hsplit := slice_append b (i := i) (j := j - e) (k := j)
        (by omega) (by omega)
      rw [← hsplit]
      exact List.sublist_append_right _ _
  · have he0 : e = 0 := by omega
    subst he0
    rw [slice_eq_nil (by omega), slice_eq_nil (by omega)]
    simp

theorem renderList_cons_inv {ctx : RenderCtx} {r : Region}
    {rest : List Region} {o : List (Bool × Tok)} {f : Bool} {n : Nat}
    {c : List (Bool × Tok)} {s : Bool} {k : Nat}
    (hr : renderRegion ctx r = .ok (c, s, k))
    (h : renderList ctx (r :: rest) = .ok (o, f, n)) :
    ∃ o2 f2 n2, renderList ctx rest = .ok (o2, f2, n2) ∧
      o = c ++ o2 ∧ f = (s || f2) ∧ n = k + n2 := by
  simp only [renderList] at h
  rw [hr] at h
  cases hrest : renderList ctx rest with
  | error e => rw [hrest] at h; exact Except.noConfusion h
  | ok v =>
    obtain ⟨o2, f2, n2⟩ := v
    rw [hrest] at h
    have h' : ((c ++ o2 : List (Bool × Tok)), s || f2, k + n2)
        = (o, f, n) := Except.ok.inj h
    simp only [Prod.mk.injEq] at h'
    exact ⟨o2, f2, n2, rfl, h'.1.symm, h'.2.1.symm, h'.2.2.symm⟩

theorem renderList_append_inv {ctx : RenderCtx} {l1 l2 : List Region}
    {o : List (Bool × Tok)} {f : Bool} {n : Nat}
    (h : renderList ctx (l1 ++ l2) = .ok (o, f, n)) :
    ∃ o1 f1 n1 o2 f2 n2, renderList ctx l1 = .ok (o1, f1, n1) ∧
      renderList ctx l2 = .ok (o2, f2, n2) ∧
      o = o1 ++ o2 ∧ f = (f1 || f2) ∧ n = n1 + n2 := by
  induction l1 generalizing o f n with
  | nil =>
    exact ⟨[], false, 0, o, f, n, rfl, h, by simp, by simp, by simp⟩
  | cons r rest ih =>
    rw [List.cons_append] at h
    cases hr : renderRegion ctx r with
    | error e =>
      simp only [renderList] at h
      rw [hr] at h
      exact Except.noConfusion h
    | ok v =>
      obtain ⟨c, s, k⟩ := v
      obtain ⟨o', f', n', hrest, ho, hf, hn⟩ := renderList_cons_inv hr h
      obtain ⟨o1, f1, n1, o2, f2, n2, hh1, hh2, he1, he2, he3⟩ := ih hrest
      refine ⟨c ++ o1, s || f1, k + n1, o2, f2, n2, ?_, hh2, ?_, ?_, ?_⟩
      · simp only [renderList, hr, hh1, bind, Except.bind]
      · rw [ho, he1, List.append_assoc]
      · rw [hf, he2, Bool.or_assoc]
      · omega

/-- In disabled mode with no force side, a conflict region renders to its
marker block, setting the flag and bumping the count. -/
theorem renderRegion_conflict_markers {ctx : RenderCtx}
    (hw : ctx.w = WordMergeMode.disabled) (hlo : ctx.lo = none)
    (z1 z2 a1 a2 b1 b2 : Nat) :
    renderRegion ctx (Region.conflict z1 z2 a1 a2 b1 b2)
      = .ok (conflictMarkers ctx z1 z2 a1 a2 b1 b2, true, 1) := by
  simp [renderRegion, hlo, hw]

theorem renderList_single {ctx : RenderCtx} {r : Region}
    {c : List (Bool × Tok)} {s : Bool} {k : Nat}
    (hr : renderRegion ctx r = .ok (c, s, k)) :
    renderList ctx [r] = .ok (c, s, k) := by
  simp only [renderList, hr, bind, Except.bind]
  simp

/-- Rendering the retained-front `same` region (or nothing, when the
front match is empty) always yields the front-match tokens. -/
theorem renderList_sameOpt (ctx : RenderCtx) (a1 s : Nat) :
    renderList ctx
      (if 0 < s then [Region.same a1 (a1 + s)] else [])
      = .ok ((slice ctx.a a1 (a1 + s)).map (fun t => (false, t)),
          false, 0) := by
  by_cases hs : 0 < s
  · rw [if_pos hs]
    exact renderList_single rfl
  · rw [if_neg hs]
    have hs0 : s = 0 := by omega
    subst hs0
    rw [show slice ctx.a a1 (a1 + 0) = ([] : List Tok) from
      slice_eq_nil (by omega)]
    rfl

theorem renderList_sufOpt (ctx : RenderCtx) (a2 e : Nat) :
    renderList ctx
      (if 0 < e then [Region.same (a2 - e) a2] else [])
      = .ok ((slice ctx.a (a2 - e) a2).map (fun t => (false, t)),
          false, 0) := by
  by_cases he : 0 < e
  · rw [if_pos he]
    exact renderList_single rfl
  · rw [if_neg he]
    have he0 : e = 0 := by omega
    subst he0
    rw [show slice ctx.a (a2 - 0) a2 = ([] : List Tok) from
      slice_eq_nil (by omega)]
    rfl

/-- C2, amended: with word merge disabled and no force side, rendering a
region stream with `minimize` yields the same conflict count, and its
non-marker tokens form a subsequence of those of the unminimized
rendering, in the same order; they differ only in that tokens shared by
the two sides at the edges of a conflict are emitted once (outside the
markers) instead of once per side (inside them). -/
theorem c2_amended (ctx : RenderCtx) (hw : ctx.w = WordMergeMode.disabled)
    (hlo : ctx.lo = none) :
    ∀ (rs : List Region) (o1 o2 : List (Bool × Tok)) (f1 f2 : Bool)
      (n1 n2 : Nat),
    renderList ctx rs = .ok (o1, f1, n1) →
    renderList ctx (minimize ctx.a ctx.b rs) = .ok (o2, f2, n2) →
    List.Sublist (nonMarkers o2) (nonMarkers o1) ∧ n2 = n1 := by
  intro rs
  induction rs with
  | nil =>
    intro o1 o2 f1 f2 n1 n2 h1 h2
    simp only [minimize, renderList] at h1 h2
    have h1' := Except.ok.inj h1
    have h2' := Except.ok.inj h2
    simp only [Prod.mk.injEq] at h1' h2'
    rw [← h1'.1, ← h2'.1, ← h1'.2.2, ← h2'.2.2]
    exact ⟨List.Sublist.refl _, rfl⟩
  | cons r rest ih =>
    intro o1 o2 f1 f2 n1 n2 h1 h2
    cases r with
    | unchanged i j =>
      have hreg : renderRegion ctx (Region.unchanged i j)
          = Except.ok ((slice ctx.base i j).map (fun t => (false, t)),
            false, 0) := rfl
      obtain ⟨o1r, f1r, n1r, h1rest, ho1, hf1, hn1⟩ :=
        renderList_cons_inv hreg h1
      simp only [minimize] at h2
      obtain ⟨o2r, f2r, n2r, h2rest, ho2, hf2, hn2⟩ :=
        renderList_cons_inv hreg h2
      obtain ⟨hsub, hcnt⟩ := ih o1r o2r f1r f2r n1r n2r h1rest h2rest
      subst ho1 ho2 hn1 hn2
      refine ⟨?_, by omega⟩
      rw [nonMarkers_append, nonMarkers_append]
      exact List.Sublist.append (List.Sublist.refl _) hsub
    | same i j =>
      have hreg : renderRegion ctx (Region.same i j)
          = Except.ok ((slice ctx.a i j).map (fun t => (false, t)),
            false, 0) := rfl
      obtain ⟨o1r, f1r, n1r, h1rest, ho1, hf1, hn1⟩ :=
        renderList_cons_inv hreg h1
      simp only [minimize] at h2
      obtain ⟨o2r, f2r, n2r, h2rest, ho2, hf2, hn2⟩ :=
        renderList_cons_inv hreg h2
      obtain ⟨hsub, hcnt⟩ := ih o1r o2r f1r f2r n1r n2r h1rest h2rest
      subst ho1 ho2 hn1 hn2
      refine ⟨?_, by omega⟩
      rw [nonMarkers_append, nonMarkers_append]
      exact List.Sublist.append (List.Sublist.refl _) hsub
    | sidea i j =>
      have hreg : renderRegion ctx (Region.sidea i j)
          = Except.ok ((slice ctx.a i j).map (fun t => (false, t)),
            false, 0) := rfl
      obtain ⟨o1r, f1r, n1r, h1rest, ho1, hf1, hn1⟩ :=
        renderList_cons_inv hreg h1
      simp only [minimize] at h2
      obtain ⟨o2r, f2r, n2r, h2rest, ho2, hf2, hn2⟩ :=
        renderList_cons_inv hreg h2
      obtain ⟨hsub, hcnt⟩ := ih o1r o2r f1r f2r n1r n2r h1rest h2rest
      subst ho1 ho2 hn1 hn2
      refine ⟨?_, by omega⟩
      rw [nonMarkers_append, nonMarkers_append]
      exact List.Sublist.append (List.Sublist.refl _) hsub
    | sideb i j =>
      have hreg : renderRegion ctx (Region.sideb i j)
          = Except.ok ((slice ctx.b i j).map (fun t => (false, t)),
            false, 0) := rfl
      obtain ⟨o1r, f1r, n1r, h1rest, ho1, hf1, hn1⟩ :=
        renderList_cons_inv hreg h1
      simp only [minimize] at h2
      obtain ⟨o2r, f2r, n2r, h2rest, ho2, hf2, hn2⟩ :=
        renderList_cons_inv hreg h2
      obtain ⟨hsub, hcnt⟩ := ih o1r o2r f1r f2r n1r n2r h1rest h2rest
      subst ho1 ho2 hn1 hn2
      refine ⟨?_, by omega⟩
      rw [nonMarkers_append, nonMarkers_append]
      exact List.Sublist.append (List.Sublist.refl _) hsub
    | conflict z1 z2 a1 a2 b1 b2 =>
      obtain ⟨o1r, f1r, n1r, h1rest, ho1, hf1, hn1⟩ :=
        renderList_cons_inv
          (renderRegion_conflict_markers hw hlo z1 z2 a1 a2 b1 b2) h1
      simp only [minimize] at h2
      set s := frontMatches ctx.a ctx.b a1 b1 (a2 - a1) (b2 - b1)
        with hsdef
      set e := endMatches ctx.a ctx.b a2 b2 (a2 - a1) (b2 - b1)
        with hedef
      obtain ⟨og, fg, ng, oD, fD, nD, hg, hD, hog, hfg, hng⟩ :=
        renderList_append_inv h2
      obtain ⟨oAB, fAB, nAB, oC, fC, nC, hAB, hC, hoAB, hfAB, hnAB⟩ :=
        renderList_append_inv hg
      obtain ⟨oA, fA, nA, oB, fB, nB, hA, hB, hoA, hfA, hnA⟩ :=
        renderList_append_inv hAB
      -- pin down the three group pieces
      have hA' := (renderList_sameOpt ctx a1 s).symm.trans hA
      have hB' := (renderList_single (renderRegion_conflict_markers hw hlo
        z1 z2 (a1 + s) (a2 - e) (b1 + s) (b2 - e))).symm.trans hB
      have hC' := (renderList_sufOpt ctx a2 e).symm.trans hC
      have hA2 := Except.ok.inj hA'
      have hB2 := Except.ok.inj hB'
      have hC2 := Except.ok.inj hC'
      simp only [Prod.mk.injEq] at hA2 hB2 hC2
      obtain ⟨hoA2, -, hnA2⟩ := hA2
      obtain ⟨hoB2, -, hnB2⟩ := hB2
      obtain ⟨hoC2, -, hnC2⟩ := hC2
      obtain ⟨hsub, hcnt⟩ := ih o1r oD f1r fD n1r nD h1rest hD
      -- bounds on the match lengths
      have hsle := frontMatches_le ctx.a ctx.b a1 b1 (a2 - a1) (b2 - b1)
      have hele := endMatches_le ctx.a ctx.b a2 b2 (a2 - a1) (b2 - b1)
      rw [← hsdef] at hsle
      rw [← hedef] at hele
      have hmin1 := min_le_left (a2 - a1) (b2 - b1)
      have hmin2 := min_le_right (a2 - a1) (b2 - b1)
      constructor
      · -- the token sublist
        subst ho1 hog hoAB hoA
        rw [← hoA2, ← hoB2, ← hoC2]
        have hsuf : slice ctx.a (a2 - e) a2 = slice ctx.b (b2 - e) b2 :=
          endMatches_slice ctx.a ctx.b a2 b2 (a2 - a1) (b2 - b1) e hedef
            (by omega) (by omega)
        have hpre : List.Sublist
            (slice ctx.a a1 (a1 + s) ++ slice ctx.a (a1 + s) (a2 - e))
            (slice ctx.a a1 a2) := preMid_sublist ctx.a (by omega)
        have hmid : List.Sublist
            (slice ctx.b (b1 + s) (b2 - e) ++ slice ctx.b (b2 - e) b2)
            (slice ctx.b b1 b2) := midSuf_sublist ctx.b (by omega)
        have hbase : List.Sublist
            ((match ctx.basem with
              | some _ => slice ctx.base z1 z2
              | none => ([] : List Tok)) ++
              (slice ctx.b (b1 + s) (b2 - e) ++ slice ctx.b (b2 - e) b2))
            ((match ctx.basem with
              | some _ => slice ctx.base z1 z2
              | none => ([] : List Tok)) ++ slice ctx.b b1 b2) :=
          List.Sublist.append (List.Sublist.refl _) hmid
        have hgroup : List.Sublist
            ((slice ctx.a a1 (a1 + s) ++ slice ctx.a (a1 + s) (a2 - e)) ++
              ((match ctx.basem with
                | some _ => slice ctx.base z1 z2
                | none => ([] : List Tok)) ++
                (slice ctx.b (b1 + s) (b2 - e) ++ slice ctx.b (b2 - e) b2)))
            ((slice ctx.a a1 a2) ++
              ((match ctx.basem with
                | some _ => slice ctx.base z1 z2
                | none => ([] : List Tok)) ++ slice ctx.b b1 b2)) :=
          List.Sublist.append hpre hbase
        have hwhole := List.Sublist.append hgroup hsub
        rw [nonMarkers_append, nonMarkers_append, nonMarkers_append,
          nonMarkers_append, nonMarkers_content, nonMarkers_content,
          nonMarkers_conflictMarkers, nonMarkers_conflictMarkers]
        rw [hsuf]
        simp only [List.append_assoc] at hwhole ⊢
        exact hwhole
      · subst hng hnAB hnA hn1
        omega

/-- The render context of the C2 counterexample run:
`base = "X\n"`, `a = "P\nA\n"`, `b = "P\nB\n"`, default options. -/
def ctxC2 : RenderCtx :=
  mkCtx WordMergeMode.disabled (trywordmerge get_matching_blocks) {}
    (bs "X\n") (bs "P\nA\n") (bs "P\nB\n")

/-- The tagged rendering of the conflict without minimize. -/
def outC2plain : List (Bool × Tok) :=
  [(true, bs "<<<<<<<\n"), (false, bs "P\n"), (false, bs "A\n"),
   (true, bs "=======\n"), (false, bs "P\n"), (false, bs "B\n"),
   (true, bs ">>>>>>>\n")]

/-- The tagged rendering of the same conflict with minimize. -/
def outC2min : List (Bool × Tok) :=
  [(false, bs "P\n"), (true, bs "<<<<<<<\n"), (false, bs "A\n"),
   (true, bs "=======\n"), (false, bs "B\n"), (true, bs ">>>>>>>\n")]

/-- C2 fails on the code: for `base = "X\n"`, `a = "P\nA\n"`,
`b = "P\nB\n"`, minimize moves the shared line `P\n` out of the conflict
and emits it once, while the unminimized output emits it twice (once per
side inside the markers): the two outputs do not contain the same
non-marker tokens. -/
theorem c2_counterexample :
    merge_regions get_matching_blocks WordMergeMode.disabled
      (bs "X\n") (bs "P\nA\n") (bs "P\nB\n")
      = .ok [Region.conflict 0 1 0 2 0 2] ∧
    renderList ctxC2 [Region.conflict 0 1 0 2 0 2]
      = .ok (outC2plain, true, 1) ∧
    renderList ctxC2
      (minimize (splitnewlines (bs "P\nA\n")) (splitnewlines (bs "P\nB\n"))
        [Region.conflict 0 1 0 2 0 2])
      = .ok (outC2min, true, 1) ∧
    nonMarkers outC2min ≠ nonMarkers outC2plain ∧
    merge_lines get_matching_blocks WordMergeMode.disabled {}
      (bs "X\n") (bs "P\nA\n") (bs "P\nB\n")
      = .ok ([bs "<<<<<<<\n", bs "P\n", bs "A\n", bs "=======\n",
          bs "P\n", bs "B\n", bs ">>>>>>>\n"], true, 1) ∧
    merge_lines get_matching_blocks WordMergeMode.disabled
      {minimize := true} (bs "X\n") (bs "P\nA\n") (bs "P\nB\n")
      = .ok ([bs "P\n", bs "<<<<<<<\n", bs "A\n", bs "=======\n",
          bs "B\n", bs ">>>>>>>\n"], true, 1) := by
  exact ⟨rfl, rfl, rfl, by decide, rfl, rfl⟩

theorem c2_amended_witness :
    List.Sublist (nonMarkers outC2min) (nonMarkers outC2plain) ∧
    (1 : Nat) = 1 :=
  c2_amended ctxC2 rfl rfl [Region.conflict 0 1 0 2 0 2]
    outC2plain outC2min true true 1 1 rfl rfl

/-! ### C1: one side equal to the base -/

/-- The matching-block decomposition of a sequence against itself under
the spec's matcher (§4.2): the classical LCS decomposition of two equal
sequences is the single full-length block plus the sentinel. -/
def fullBlocks (xs : List Tok) : List MBlock :=
  [MBlock.mk 0 0 xs.length, MBlock.mk xs.length xs.length 0]

/-- The matcher contract of spec §4.2, relative to the two token
sequences: every block's two slices agree and stay in bounds, blocks are
ascending and non-overlapping, and the list ends with the zero-length
sentinel. -/
def BlocksOK (xs ys : List Tok) (bl : List MBlock) : Prop :=
  (∀ k ∈ bl, k.base + k.len ≤ xs.length ∧ k.side + k.len ≤ ys.length ∧
    slice xs k.base (k.base + k.len) = slice ys k.side (k.side + k.len)) ∧
  List.Chain' (fun u v => u.base + u.len ≤ v.base ∧ u.side + u.len ≤ v.side)
    bl ∧
  bl.getLast? = some (MBlock.mk xs.length ys.length 0)

theorem compare_range_symm {a b : List Tok} {i j k l : Nat}
    (h : compare_range a i j b k l = true) :
    compare_range b k l a i j = true := by
  rw [compare_range_iff] at h ⊢
  obtain ⟨hlen, hpt⟩ := h
  refine ⟨by omega, fun m hm => ?_⟩
  exact (hpt m (by omega)).symm

theorem slice_all (l : List Tok) : slice l 0 l.length = l := by
  unfold slice
  simp

theorem splitFor_disabled : splitFor WordMergeMode.disabled = splitnewlines
  := rfl

theorem matchText_disabled (t : Tok) :
    matchText WordMergeMode.disabled t = t := rfl

/-- Unfolding `mergeRegionsLoop` one sync at a time: positive match
length. -/
theorem mergeRegionsLoop_cons {a b base : List Tok} {s : Sync}
    {rest : List Sync} {iz ia ib : Nat}
    (h1 : s.z1 ≤ s.z2) (h2 : s.a1 ≤ s.a2) (h3 : s.b1 ≤ s.b2)
    (h4 : s.a2 - s.a1 = s.z2 - s.z1) (h5 : s.b2 - s.b1 = s.z2 - s.z1)
    (h6 : ia ≤ s.a1) (h7 : ib ≤ s.b1) (h8 : iz ≤ s.z1)
    {g : List Region}
    (hg : classifyGap a b base iz ia ib s.z1 s.a1 s.b1 = .ok g)
    (hmatch : 0 < s.z2 - s.z1)
    {rest' : List Region}
    (hrec : mergeRegionsLoop a b base rest s.z2 s.a2 s.b2 = .ok rest') :
    mergeRegionsLoop a b base (s :: rest) iz ia ib
      = .ok (g ++ Region.unchanged s.z1 s.z2 :: rest') := by
  simp only [mergeRegionsLoop]
  rw [if_neg (not_not_intro ⟨h1, h2, h3, h4, h5⟩),
    if_neg (not_not_intro ⟨h6, h7, h8⟩), hg]
  simp only [bind, Except.bind]
  rw [if_pos hmatch, hrec]

/-- Unfolding `mergeRegionsLoop` one sync at a time: zero match length. -/
theorem mergeRegionsLoop_cons0 {a b base : List Tok} {s : Sync}
    {rest : List Sync} {iz ia ib : Nat}
    (h1 : s.z1 ≤ s.z2) (h2 : s.a1 ≤ s.a2) (h3 : s.b1 ≤ s.b2)
    (h4 : s.a2 - s.a1 = s.z2 - s.z1) (h5 : s.b2 - s.b1 = s.z2 - s.z1)
    (h6 : ia ≤ s.a1) (h7 : ib ≤ s.b1) (h8 : iz ≤ s.z1)
    {g : List Region}
    (hg : classifyGap a b base iz ia ib s.z1 s.a1 s.b1 = .ok g)
    (hmatch : s.z2 - s.z1 = 0)
    {rest' : List Region}
    (hrec : mergeRegionsLoop a b base rest s.z1 s.a1 s.b1 = .ok rest') :
    mergeRegionsLoop a b base (s :: rest) iz ia ib = .ok (g ++ rest') := by
  simp only [mergeRegionsLoop]
  rw [if_neg (not_not_intro ⟨h1, h2, h3, h4, h5⟩),
    if_neg (not_not_intro ⟨h6, h7, h8⟩), hg]
  simp only [bind, Except.bind]
  rw [if_neg (by omega), hrec]

/-- Gap classification when the `a` side *is* the base and the cursors
agree: the gap always renders to the pending `b` tokens. -/
theorem gapA (ctx : RenderCtx) (bt b : List Tok) (hca : ctx.a = bt)
    (hcb : ctx.b = b) (iz ib zm bm : Nat) :
    ∃ g, classifyGap bt b bt iz iz ib zm zm bm = .ok g ∧
      renderList ctx g
        = .ok ((slice b ib bm).map (fun t => (false, t)), false, 0) := by
  unfold classifyGap
  by_cases hgap : 0 < zm - iz ∨ 0 < bm - ib
  · rw [if_pos hgap]
    by_cases hsame : compare_range bt iz zm b ib bm = true
    · rw [if_pos hsame]
      refine ⟨_, rfl, ?_⟩
      have hr : renderRegion ctx (Region.same iz zm)
          = .ok ((slice ctx.a iz zm).map (fun t => (false, t)), false, 0)
        := rfl
      rw [renderList_single hr, hca, compare_range_slice hsame]
    · rw [if_neg hsame]
      have hea : compare_range bt iz zm bt iz zm = true :=
        compare_range_refl bt iz zm
      have heb : ¬ compare_range b ib bm bt iz zm = true := by
        intro hc
        exact hsame (compare_range_symm hc)
      rw [if_pos ⟨hea, heb⟩]
      refine ⟨_, rfl, ?_⟩
      have hr : renderRegion ctx (Region.sideb ib bm)
          = .ok ((slice ctx.b ib bm).map (fun t => (false, t)), false, 0)
        := rfl
      rw [renderList_single hr, hcb]
  · rw [if_neg hgap]
    refine ⟨[], rfl, ?_⟩
    have hbm : bm ≤ ib := by omega
    rw [show slice b ib bm = ([] : List Tok) from slice_eq_nil hbm]
    rfl

/-- Gap classification when the `b` side *is* the base and the cursors
agree: the gap always renders to the pending `a` tokens. -/
theorem gapB (ctx : RenderCtx) (at' bt : List Tok) (hca : ctx.a = at')
    (iz ia zm am : Nat) :
    ∃ g, classifyGap at' bt bt iz ia iz zm am zm = .ok g ∧
      renderList ctx g
        = .ok ((slice at' ia am).map (fun t => (false, t)), false, 0) := by
  unfold classifyGap
  by_cases hgap : 0 < am - ia ∨ 0 < zm - iz
  · rw [if_pos hgap]
    by_cases hsame : compare_range at' ia am bt iz zm = true
    · rw [if_pos hsame]
      refine ⟨_, rfl, ?_⟩
      have hr : renderRegion ctx (Region.same ia am)
          = .ok ((slice ctx.a ia am).map (fun t => (false, t)), false, 0)
        := rfl
      rw [renderList_single hr, hca]
    · rw [if_neg hsame]
      have heb : compare_range bt iz zm bt iz zm = true :=
        compare_range_refl bt iz zm
      rw [if_neg (by tauto), if_pos ⟨heb, hsame⟩]
      refine ⟨_, rfl, ?_⟩
      have hr : renderRegion ctx (Region.sidea ia am)
          = .ok ((slice ctx.a ia am).map (fun t => (false, t)), false, 0)
        := rfl
      rw [renderList_single hr, hca]
  · rw [if_neg hgap]
    refine ⟨[], rfl, ?_⟩
    have ham : am ≤ ia := by omega
    rw [show slice at' ia am = ([] : List Tok) from slice_eq_nil ham]
    rfl

/-- The sync region induced by a `(base, b)` matching block when the `a`
side fully matches the base. -/
def syncOfB (k : MBlock) : Option Sync :=
  if 0 < k.len then
    some (Sync.mk k.base (k.base + k.len) k.base (k.base + k.len)
      k.side (k.side + k.len))
  else none

/-- The sync region induced by a `(base, a)` matching block when the `b`
side fully matches the base. -/
def syncOfA (k : MBlock) : Option Sync :=
  if 0 < k.len then
    some (Sync.mk k.base (k.base + k.len) k.side (k.side + k.len)
      k.base (k.base + k.len))
  else none

theorem syncLoop_bnil (fuel : Nat) (A : List MBlock) :
    syncLoop fuel A [] = [] := by
  cases fuel with
  | zero => rfl
  | succ f => cases A <;> rfl

theorem syncLoop_anil (fuel : Nat) (B : List MBlock) :
    syncLoop fuel [] B = [] := by
  cases fuel with
  | zero => rfl
  | succ f => cases B <;> rfl

/-- `syncLoop` against the full self-match on the `a` side walks the `b`
blocks one by one, turning each non-trivial one into a sync region. -/
theorem syncLoop_fullA (n : Nat) :
    ∀ (B : List MBlock) (fuel : Nat), B.length + 1 ≤ fuel →
    (∀ k ∈ B, k.base + k.len ≤ n) →
    syncLoop fuel [MBlock.mk 0 0 n, MBlock.mk n n 0] B
      = B.filterMap syncOfB := by
  intro B
  induction B with
  | nil =>
    intro fuel hf hb
    match fuel with
    | f + 1 => rfl
  | cons kb brest ih =>
    intro fuel hf hb
    match fuel with
    | f + 1 =>
      have hbk := hb kb (List.mem_cons_self kb brest)
      have hint : intersect (0, 0 + n) (kb.base, kb.base + kb.len)
          = if 0 < kb.len then some (kb.base, kb.base + kb.len)
            else none := by
        unfold intersect
        simp only
        have hmax : max 0 kb.base = kb.base := max_eq_right (Nat.zero_le _)
        have hmin : min (0 + n) (kb.base + kb.len) = kb.base + kb.len :=
          min_eq_right (by omega)
        rw [hmax, hmin]
        by_cases h : 0 < kb.len
        · rw [if_pos (by omega), if_pos h]
        · rw [if_neg (by omega), if_neg h]
      simp only [syncLoop]
      rw [hint, List.filterMap_cons]
      by_cases h : 0 < kb.len
      · rw [if_pos h]
        have hrec : syncLoop f [MBlock.mk 0 0 n, MBlock.mk n n 0] brest
            = brest.filterMap syncOfB := by
          apply ih f (by simp at hf ⊢; omega)
          exact fun k hk => hb k (List.mem_cons_of_mem kb hk)
        rw [if_neg (show ¬ (0 : Nat) + n < kb.base + kb.len from by omega),
          hrec]
        have hof : syncOfB kb = some (Sync.mk kb.base (kb.base + kb.len)
            kb.base (kb.base + kb.len) kb.side (kb.side + kb.len)) := by
          unfold syncOfB
          rw [if_pos h]
        rw [hof]
        rw [List.singleton_append]
        congr 1
        congr 1 <;> omega
      · rw [if_neg h]
        have hlen0 : kb.len = 0 := by omega
        have hrec : syncLoop f [MBlock.mk 0 0 n, MBlock.mk n n 0] brest
            = brest.filterMap syncOfB := by
          apply ih f (by simp at hf ⊢; omega)
          exact fun k hk => hb k (List.mem_cons_of_mem kb hk)
        rw [if_neg (show ¬ (0 : Nat) + n < kb.base + kb.len from by omega),
          hrec]
        have hof : syncOfB kb = none := by
          unfold syncOfB
          rw [if_neg h]
        rw [hof, List.nil_append]

theorem syncLoop_sent (n : Nat) :
    ∀ (A : List MBlock) (fuel : Nat), A.length + 1 ≤ fuel →
    (∀ k ∈ A, k.base + k.len ≤ n) →
    syncLoop fuel A [MBlock.mk n n 0] = [] := by
  intro A
  induction A with
  | nil =>
    intro fuel hf hb
    exact syncLoop_anil fuel _
  | cons ka arest ih =>
    intro fuel hf hb
    match fuel with
    | f + 1 =>
      have hak := hb ka (List.mem_cons_self ka arest)
      have hint : intersect (ka.base, ka.base + ka.len) (n, n + 0)
          = none := by
        unfold intersect
        simp only
        rw [if_neg (by omega)]
      simp only [syncLoop]
      rw [hint, List.nil_append]
      by_cases hadv : ka.base + ka.len < n + 0
      · rw [if_pos hadv]
        apply ih f (by simp at hf ⊢; omega)
        exact fun k hk => hb k (List.mem_cons_of_mem ka hk)
      · rw [if_neg hadv]
        exact syncLoop_bnil f _

/-- Blocks that start at or beyond the end of the base are all
zero-length, so they induce no sync regions. -/
theorem filterMap_syncOfA_tail (n : Nat) :
    ∀ (A : List MBlock),
    (∀ k ∈ A, k.base + k.len ≤ n) →
    List.Chain' (fun u v => u.base + u.len ≤ v.base ∧
      u.side + u.len ≤ v.side) A →
    (∀ k, A.head? = some k → n ≤ k.base) →
    A.filterMap syncOfA = [] := by
  intro A
  induction A with
  | nil => intro hb hch hhd; rfl
  | cons ka arest ih =>
    intro hb hch hhd
    have hak := hb ka (List.mem_cons_self ka arest)
    have hka : n ≤ ka.base := hhd ka rfl
    have hlen0 : ka.len = 0 := by omega
    rw [List.filterMap_cons]
    have hof : syncOfA ka = none := by
      unfold syncOfA
      rw [if_neg (by omega)]
    rw [hof]
    apply ih (fun k hk => hb k (List.mem_cons_of_mem ka hk)) hch.tail
    intro k hk
    have := (List.chain'_cons'.mp hch).1 k hk
    omega

/-- `syncLoop` against the full self-match on the `b` side walks the `a`
blocks one by one, turning each non-trivial one into a sync region. -/
theorem syncLoop_fullB (n : Nat) :
    ∀ (A : List MBlock) (fuel : Nat), A.length + 2 ≤ fuel →
    (∀ k ∈ A, k.base + k.len ≤ n) →
    List.Chain' (fun u v => u.base + u.len ≤ v.base ∧
      u.side + u.len ≤ v.side) A →
    syncLoop fuel A [MBlock.mk 0 0 n, MBlock.mk n n 0]
      = A.filterMap syncOfA := by
  intro A
  induction A with
  | nil =>
    intro fuel hf hb hch
    exact syncLoop_anil fuel _
  | cons ka arest ih =>
    intro fuel hf hb hch
    match fuel with
    | f + 1 =>
      have hak := hb ka (List.mem_cons_self ka arest)
      have hint : intersect (ka.base, ka.base + ka.len) (0, 0 + n)
          = if 0 < ka.len then some (ka.base, ka.base + ka.len)
            else none := by
        unfold intersect
        simp only
        have hmax : max ka.base 0 = ka.base := max_eq_left (Nat.zero_le _)
        have hmin : min (ka.base + ka.len) (0 + n) = ka.base + ka.len :=
          min_eq_left (by omega)
        rw [hmax, hmin]
        by_cases h : 0 < ka.len
        · rw [if_pos (by omega), if_pos h]
        · rw [if_neg (by omega), if_neg h]
      simp only [syncLoop]
      rw [hint, List.filterMap_cons]
      by_cases h : 0 < ka.len
      · rw [if_pos h]
        have hof : syncOfA ka = some (Sync.mk ka.base (ka.base + ka.len)
            ka.side (ka.side + ka.len) ka.base (ka.base + ka.len)) := by
          unfold syncOfA
          rw [if_pos h]
        rw [hof]
        by_cases hadv : ka.base + ka.len < 0 + n
        · rw [if_pos hadv]
          have hrec : syncLoop f arest [MBlock.mk 0 0 n, MBlock.mk n n 0]
              = arest.filterMap syncOfA := by
            apply ih f (by simp at hf ⊢; omega)
              (fun k hk => hb k (List.mem_cons_of_mem ka hk)) hch.tail
          rw [hrec, List.singleton_append]
          congr 1
          congr 1 <;> omega
        · rw [if_neg hadv]
          have hrest : syncLoop f (ka :: arest) [MBlock.mk n n 0] = [] := by
            apply syncLoop_sent n (ka :: arest) f
              (by simp at hf ⊢; omega) hb
          rw [hrest]
          have htail : arest.filterMap syncOfA = [] := by
            apply filterMap_syncOfA_tail n arest
              (fun k hk => hb k (List.mem_cons_of_mem ka hk)) hch.tail
            intro k hk
            have := (List.chain'_cons'.mp hch).1 k hk
            omega
          rw [htail, List.append_nil]
          simp only
          congr 1
          congr 1 <;> omega
      · rw [if_neg h]
        have hof : syncOfA ka = none := by
          unfold syncOfA
          rw [if_neg h]
        rw [hof, List.nil_append]
        by_cases hadv : ka.base + ka.len < 0 + n
        · rw [if_pos hadv]
          apply ih f (by simp at hf ⊢; omega)
            (fun k hk => hb k (List.mem_cons_of_mem ka hk)) hch.tail
        · rw [if_neg hadv]
          have hrest : syncLoop f (ka :: arest) [MBlock.mk n n 0] = [] := by
            apply syncLoop_sent n (ka :: arest) f
              (by simp at hf ⊢; omega) hb
          rw [hrest]
          have htail : arest.filterMap syncOfA = [] := by
            apply filterMap_syncOfA_tail n arest
              (fun k hk => hb k (List.mem_cons_of_mem ka hk)) hch.tail
            intro k hk
            have := (List.chain'_cons'.mp hch).1 k hk
            omega
          rw [htail]

/-- Concatenation over a cons of tokens. -/
theorem joinl_cons (t : Tok) (l : List Tok) :
    joinl (t :: l) = t ++ joinl l := rfl

/-- Joining the tokens of `splitnlGo` reconstitutes the carried prefix
plus the remaining text. -/
theorem splitnlGo_join (text : List Nat) (cur : Tok) :
    joinl (splitnlGo text cur) = cur ++ text := by
  induction text, cur using splitnlGo.induct with
  | case1 =>
    simp [splitnlGo, joinl]
  | case2 cur h =>
    simp only [splitnlGo]
    rw [if_neg h]
    simp [joinl]
  | case3 rest cur ih =>
    simp only [splitnlGo, joinl_cons, ih]
    simp
  | case4 rest cur ih =>
    simp only [splitnlGo, joinl_cons, ih]
    simp
  | case5 rest cur hne ih =>
    rw [show splitnlGo (13 :: rest) cur = (cur ++ [13]) :: splitnlGo rest []
      from by
        cases rest with
        | nil => rfl
        | cons d r =>
          by_cases hd : d = 10
          · exact absurd (show d :: r = 10 :: r by rw [hd]) (hne r)
          · simp only [splitnlGo]]
    rw [joinl_cons, ih]
    simp
  | case6 c rest cur h10 h1310 h13 ih =>
    rw [show splitnlGo (c :: rest) cur = splitnlGo rest (cur ++ [c])
      from by simp only [splitnlGo]]
    rw [ih]
    simp

/-- Line tokenization is lossless: joining the lines gives the buffer
back (spec §3). -/
theorem splitnewlines_join (text : Tok) :
    joinl (splitnewlines text) = text := by
  unfold splitnewlines
  rw [splitnlGo_join]
  rfl

/-- Stripping the tags off a stream of plainly tagged tokens. -/
theorem map_snd_tag (l : List Tok) :
    (l.map (fun t => ((false : Bool), t))).map Prod.snd = l := by
  induction l with
  | nil => rfl
  | cons t ts ih => simp [ih]

/-- Forward composition of a `merge_lines_core` run from its two stages
(classification and rendering). -/
theorem merge_lines_core_mk {M : Tok → Tok → List MBlock}
    {w : WordMergeMode} {wm : Tok → Tok → Tok → Except MergeErr (Option Tok)}
    {opts : MergeOpts} {x y z : Tok} {regs : List Region}
    {o : List (Bool × Tok)} {f : Bool} {n : Nat}
    (hregs : mergeRegionsLoop (splitFor w y) (splitFor w z) (splitFor w x)
      (find_sync_regions M w x y z) 0 0 0 = .ok regs)
    (hrl : renderList (mkCtx w wm opts x y z)
      (if opts.minimize then minimize (splitFor w y) (splitFor w z) regs
       else regs) = .ok (o, f, n)) :
    merge_lines_core M w wm opts x y z = .ok (o.map Prod.snd, f, n) := by
  simp only [merge_lines_core]
  rw [hregs]
  simp only [bind, Except.bind]
  rw [hrl]

/-- Walking the syncs induced by the `(base, b)` matching blocks when the
`a` side is the base: every gap classifies and renders to the pending `b`
tokens, every matched block to the corresponding (equal) base slice, so
the whole render is exactly the `b` tokens from the cursor on, with no
conflict and count 0. -/
theorem regionsA (ctx : RenderCtx) (bt b : List Tok)
    (hca : ctx.a = bt) (hcb : ctx.b = b) (hcz : ctx.base = bt) :
    ∀ (B : List MBlock) (iz ib : Nat),
    (∀ k ∈ B, k.base + k.len ≤ bt.length ∧ k.side + k.len ≤ b.length ∧
      slice bt k.base (k.base + k.len) = slice b k.side (k.side + k.len)) →
    List.Chain' (fun u v => u.base + u.len ≤ v.base ∧
      u.side + u.len ≤ v.side) B →
    (∀ k, B.head? = some k → iz ≤ k.base ∧ ib ≤ k.side) →
    iz ≤ bt.length → ib ≤ b.length →
    ∃ regs, mergeRegionsLoop bt b bt
        (B.filterMap syncOfB
          ++ [Sync.mk bt.length bt.length bt.length bt.length
                b.length b.length]) iz iz ib = .ok regs ∧
      renderList ctx regs
        = .ok ((slice b ib b.length).map (fun t => (false, t)), false, 0)
  := by
  intro B
  induction B with
  | nil =>
    intro iz ib hbnd hch hhd hiz hib
    obtain ⟨g, hg, hrg⟩ := gapA ctx bt b hca hcb iz ib bt.length b.length
    refine ⟨g ++ [], ?_, ?_⟩
    · simp only [List.filterMap_nil, List.nil_append]
      exact mergeRegionsLoop_cons0 (Nat.le_refl _) (Nat.le_refl _)
        (Nat.le_refl _) rfl
        (show b.length - b.length = bt.length - bt.length by omega)
        hiz hib hiz hg (show bt.length - bt.length = 0 by omega) rfl
    · rw [List.append_nil]
      exact hrg
  | cons kb brest ih =>
    intro iz ib hbnd hch hhd hiz hib
    have hk := hbnd kb (List.mem_cons_self kb brest)
    have hhd' := hhd kb rfl
    by_cases h : 0 < kb.len
    · have hof : syncOfB kb = some (Sync.mk kb.base (kb.base + kb.len)
          kb.base (kb.base + kb.len) kb.side (kb.side + kb.len)) := by
        unfold syncOfB
        rw [if_pos h]
      have hfm : (kb :: brest).filterMap syncOfB
          = Sync.mk kb.base (kb.base + kb.len) kb.base (kb.base + kb.len)
              kb.side (kb.side + kb.len) :: brest.filterMap syncOfB := by
        rw [List.filterMap_cons, hof]
      have hhd2 : ∀ k, brest.head? = some k →
          kb.base + kb.len ≤ k.base ∧ kb.side + kb.len ≤ k.side := by
        intro k hk2
        exact (List.chain'_cons'.mp hch).1 k hk2
      obtain ⟨regs', hloop', hrend'⟩ :=
        ih (kb.base + kb.len) (kb.side + kb.len)
          (fun k hk2 => hbnd k (List.mem_cons_of_mem kb hk2)) hch.tail
          hhd2 hk.1 hk.2.1
      obtain ⟨g, hg, hrg⟩ := gapA ctx bt b hca hcb iz ib kb.base kb.side
      refine ⟨g ++ Region.unchanged kb.base (kb.base + kb.len) :: regs',
        ?_, ?_⟩
      · rw [hfm, List.cons_append]
        exact mergeRegionsLoop_cons (Nat.le_add_right _ _)
          (Nat.le_add_right _ _) (Nat.le_add_right _ _) rfl
          (show kb.side + kb.len - kb.side = kb.base + kb.len - kb.base
            by omega)
          hhd'.1 hhd'.2 hhd'.1 hg
          (show 0 < kb.base + kb.len - kb.base by omega) hloop'
      · have hu : renderRegion ctx (Region.unchanged kb.base
            (kb.base + kb.len))
            = .ok ((slice b kb.side (kb.side + kb.len)).map
                (fun t => (false, t)), false, 0) := by
          rw [show renderRegion ctx (Region.unchanged kb.base
              (kb.base + kb.len))
              = .ok ((slice ctx.base kb.base (kb.base + kb.len)).map
                  (fun t => (false, t)), false, 0) from rfl, hcz, hk.2.2]
        have hmid := renderList_append (renderList_single hu) hrend'
        have hall := renderList_append hrg hmid
        rw [show g ++ Region.unchanged kb.base (kb.base + kb.len) :: regs'
            = g ++ ([Region.unchanged kb.base (kb.base + kb.len)] ++ regs')
          from rfl]
        rw [hall]
        rw [← List.map_append, ← List.map_append,
          slice_append b (show kb.side ≤ kb.side + kb.len by omega)
            (show kb.side + kb.len ≤ b.length from hk.2.1),
          slice_append b (show ib ≤ kb.side from hhd'.2)
            (show kb.side ≤ b.length by omega)]
        rfl
    · have hof : syncOfB kb = none := by
        unfold syncOfB
        rw [if_neg h]
      have hfm : (kb :: brest).filterMap syncOfB
          = brest.filterMap syncOfB := by
        rw [List.filterMap_cons, hof]
      rw [hfm]
      have hhd2 : ∀ k, brest.head? = some k →
          iz ≤ k.base ∧ ib ≤ k.side := by
        intro k hk2
        have hc := (List.chain'_cons'.mp hch).1 k hk2
        omega
      exact ih iz ib (fun k hk2 => hbnd k (List.mem_cons_of_mem kb hk2))
        hch.tail hhd2 hiz hib

/-- Walking the syncs induced by the `(base, a)` matching blocks when the
`b` side is the base: every gap classifies and renders to the pending `a`
tokens, every matched block to the corresponding (equal) base slice, so
the whole render is exactly the `a` tokens from the cursor on, with no
conflict and count 0. -/
theorem regionsB (ctx : RenderCtx) ( at' bt : List Tok)
    (hca : ctx.a = at') (hcz : ctx.base = bt) :
    ∀ (A : List MBlock) (iz ia : Nat),
    (∀ k ∈ A, k.base + k.len ≤ bt.length ∧ k.side + k.len ≤ at'.length ∧
      slice bt k.base (k.base + k.len) = slice at' k.side (k.side + k.len))
      →
    List.Chain' (fun u v => u.base + u.len ≤ v.base ∧
      u.side + u.len ≤ v.side) A →
    (∀ k, A.head? = some k → iz ≤ k.base ∧ ia ≤ k.side) →
    iz ≤ bt.length → ia ≤ at'.length →
    ∃ regs, mergeRegionsLoop at' bt bt
        (A.filterMap syncOfA
          ++ [Sync.mk bt.length bt.length at'.length at'.length
                bt.length bt.length]) iz ia iz = .ok regs ∧
      renderList ctx regs
        = .ok ((slice at' ia at'.length).map (fun t => (false, t)),
            false, 0) := by
  intro A
  induction A with
  | nil =>
    intro iz ia hbnd hch hhd hiz hia
    obtain ⟨g, hg, hrg⟩ := gapB ctx at' bt hca iz ia bt.length at'.length
    refine ⟨g ++ [], ?_, ?_⟩
    · simp only [List.filterMap_nil, List.nil_append]
      exact mergeRegionsLoop_cons0 (Nat.le_refl _) (Nat.le_refl _)
        (Nat.le_refl _)
        (show at'.length - at'.length = bt.length - bt.length by omega)
        rfl hia hiz hiz hg (show bt.length - bt.length = 0 by omega) rfl
    · rw [List.append_nil]
      exact hrg
  | cons ka arest ih =>
    intro iz ia hbnd hch hhd hiz hia
    have hk := hbnd ka (List.mem_cons_self ka arest)
    have hhd' := hhd ka rfl
    by_cases h : 0 < ka.len
    · have hof : syncOfA ka = some (Sync.mk ka.base (ka.base + ka.len)
          ka.side (ka.side + ka.len) ka.base (ka.base + ka.len)) := by
        unfold syncOfA
        rw [if_pos h]
      have hfm : (ka :: arest).filterMap syncOfA
          = Sync.mk ka.base (ka.base + ka.len) ka.side (ka.side + ka.len)
              ka.base (ka.base + ka.len) :: arest.filterMap syncOfA := by
        rw [List.filterMap_cons, hof]
      have hhd2 : ∀ k, arest.head? = some k →
          ka.base + ka.len ≤ k.base ∧ ka.side + ka.len ≤ k.side := by
        intro k hk2
        exact (List.chain'_cons'.mp hch).1 k hk2
      obtain ⟨regs', hloop', hrend'⟩ :=
        ih (ka.base + ka.len) (ka.side + ka.len)
          (fun k hk2 => hbnd k (List.mem_cons_of_mem ka hk2)) hch.tail
          hhd2 hk.1 hk.2.1
      obtain ⟨g, hg, hrg⟩ := gapB ctx at' bt hca iz ia ka.base ka.side
      refine ⟨g ++ Region.unchanged ka.base (ka.base + ka.len) :: regs',
        ?_, ?_⟩
      · rw [hfm, List.cons_append]
        exact mergeRegionsLoop_cons (Nat.le_add_right _ _)
          (Nat.le_add_right _ _) (Nat.le_add_right _ _)
          (show ka.side + ka.len - ka.side = ka.base + ka.len - ka.base
            by omega)
          rfl hhd'.2 hhd'.1 hhd'.1 hg
          (show 0 < ka.base + ka.len - ka.base by omega) hloop'
      · have hu : renderRegion ctx (Region.unchanged ka.base
            (ka.base + ka.len))
            = .ok ((slice at' ka.side (ka.side + ka.len)).map
                (fun t => (false, t)), false, 0) := by
          rw [show renderRegion ctx (Region.unchanged ka.base
              (ka.base + ka.len))
              = .ok ((slice ctx.base ka.base (ka.base + ka.len)).map
                  (fun t => (false, t)), false, 0) from rfl, hcz, hk.2.2]
        have hmid := renderList_append (renderList_single hu) hrend'
        have hall := renderList_append hrg hmid
        rw [show g ++ Region.unchanged ka.base (ka.base + ka.len) :: regs'
            = g ++ ([Region.unchanged ka.base (ka.base + ka.len)] ++ regs')
          from rfl]
        rw [hall]
        rw [← List.map_append, ← List.map_append,
          slice_append at' (show ka.side ≤ ka.side + ka.len by omega)
            (show ka.side + ka.len ≤ at'.length from hk.2.1),
          slice_append at' (show ia ≤ ka.side from hhd'.2)
            (show ka.side ≤ at'.length by omega)]
        rfl
    · have hof : syncOfA ka = none := by
        unfold syncOfA
        rw [if_neg h]
      have hfm : (ka :: arest).filterMap syncOfA
          = arest.filterMap syncOfA := by
        rw [List.filterMap_cons, hof]
      rw [hfm]
      have hhd2 : ∀ k, arest.head? = some k →
          iz ≤ k.base ∧ ia ≤ k.side := by
        intro k hk2
        have hc := (List.chain'_cons'.mp hch).1 k hk2
        omega
      exact ih iz ia (fun k hk2 => hbnd k (List.mem_cons_of_mem ka hk2))
        hch.tail hhd2 hiz hia

/-- C1: under the spec's matcher contract (§4.2) for the changed pair,
with the self-match decomposing into the single full-length block plus
the sentinel, a default-marker `merge_lines` run with no force side and
word merge disabled outputs, when `a == base`, exactly `b` byte-for-byte
with conflicts flag `false` and conflict count `0`, and symmetrically,
when `b == base`, exactly `a` byte-for-byte with conflicts flag `false`
and conflict count `0`. -/
theorem c1 (M : Tok → Tok → List MBlock) (x y : Tok)
    (hxy : BlocksOK (splitnewlines x) (splitnewlines y) (M x y))
    (hxx : M x x = fullBlocks (splitnewlines x)) :
    (∃ out, merge_lines M WordMergeMode.disabled {} x x y
        = .ok (out, false, 0) ∧ joinl out = y) ∧
    (∃ out, merge_lines M WordMergeMode.disabled {} x y x
        = .ok (out, false, 0) ∧ joinl out = y) := by
  constructor
  · -- a == base: the output is b.
    have hsy : find_sync_regions M WordMergeMode.disabled x x y
        = (M x y).filterMap syncOfB
          ++ [Sync.mk (splitnewlines x).length (splitnewlines x).length
                (splitnewlines x).length (splitnewlines x).length
                (splitnewlines y).length (splitnewlines y).length] := by
      simp only [find_sync_regions, splitFor_disabled, matchText_disabled]
      rw [hxx]
      congr 1
      exact syncLoop_fullA (splitnewlines x).length (M x y)
        ((fullBlocks (splitnewlines x)).length + (M x y).length + 1)
        (by simp only [fullBlocks, List.length_cons, List.length_nil]
            omega)
        (fun k hk => (hxy.1 k hk).1)
    obtain ⟨regs, hloop, hrend⟩ :=
      regionsA (mkCtx WordMergeMode.disabled (trywordmerge M) {} x x y)
        (splitnewlines x) (splitnewlines y) rfl rfl rfl (M x y) 0 0
        hxy.1 hxy.2.1 (fun k _ => ⟨Nat.zero_le _, Nat.zero_le _⟩)
        (Nat.zero_le _) (Nat.zero_le _)
    have hregs : mergeRegionsLoop (splitFor WordMergeMode.disabled x)
        (splitFor WordMergeMode.disabled y)
        (splitFor WordMergeMode.disabled x)
        (find_sync_regions M WordMergeMode.disabled x x y) 0 0 0
        = .ok regs := by
      rw [hsy]
      exact hloop
    have hrl : renderList
        (mkCtx WordMergeMode.disabled (trywordmerge M) {} x x y)
        (if ({} : MergeOpts).minimize then
          minimize (splitFor WordMergeMode.disabled x)
            (splitFor WordMergeMode.disabled y) regs
         else regs)
        = .ok ((slice (splitnewlines y) 0 (splitnewlines y).length).map
            (fun t => (false, t)), false, 0) := hrend
    have hcore := merge_lines_core_mk hregs hrl
    have hout : (((slice (splitnewlines y) 0 (splitnewlines y).length).map
        (fun t => ((false : Bool), t))).map Prod.snd) = splitnewlines y
      := by
      rw [slice_all, map_snd_tag]
    refine ⟨splitnewlines y, ?_, splitnewlines_join y⟩
    show merge_lines_core M WordMergeMode.disabled (trywordmerge M) {}
        x x y = .ok (splitnewlines y, false, 0)
    rw [hcore, hout]
  · -- b == base: the output is a.
    have hsy : find_sync_regions M WordMergeMode.disabled x y x
        = (M x y).filterMap syncOfA
          ++ [Sync.mk (splitnewlines x).length (splitnewlines x).length
                (splitnewlines y).length (splitnewlines y).length
                (splitnewlines x).length (splitnewlines x).length] := by
      simp only [find_sync_regions, splitFor_disabled, matchText_disabled]
      rw [hxx]
      congr 1
      exact syncLoop_fullB (splitnewlines x).length (M x y)
        ((M x y).length + (fullBlocks (splitnewlines x)).length + 1)
        (by simp only [fullBlocks, List.length_cons, List.length_nil]
            omega)
        (fun k hk => (hxy.1 k hk).1) hxy.2.1
    obtain ⟨regs, hloop, hrend⟩ :=
      regionsB (mkCtx WordMergeMode.disabled (trywordmerge M) {} x y x)
        (splitnewlines y) (splitnewlines x) rfl rfl (M x y) 0 0
        hxy.1 hxy.2.1 (fun k _ => ⟨Nat.zero_le _, Nat.zero_le _⟩)
        (Nat.zero_le _) (Nat.zero_le _)
    have hregs : mergeRegionsLoop (splitFor WordMergeMode.disabled y)
        (splitFor WordMergeMode.disabled x)
        (splitFor WordMergeMode.disabled x)
        (find_sync_regions M WordMergeMode.disabled x y x) 0 0 0
        = .ok regs := by
      rw [hsy]
      exact hloop
    have hrl : renderList
        (mkCtx WordMergeMode.disabled (trywordmerge M) {} x y x)
        (if ({} : MergeOpts).minimize then
          minimize (splitFor WordMergeMode.disabled y)
            (splitFor WordMergeMode.disabled x) regs
         else regs)
        = .ok ((slice (splitnewlines y) 0 (splitnewlines y).length).map
            (fun t => (false, t)), false, 0) := hrend
    have hcore := merge_lines_core_mk hregs hrl
    have hout : (((slice (splitnewlines y) 0 (splitnewlines y).length).map
        (fun t => ((false : Bool), t))).map Prod.snd) = splitnewlines y
      := by
      rw [slice_all, map_snd_tag]
    refine ⟨splitnewlines y, ?_, splitnewlines_join y⟩
    show merge_lines_core M WordMergeMode.disabled (trywordmerge M) {}
        x y x = .ok (splitnewlines y, false, 0)
    rw [hcore, hout]

/-- Witness for C1 on concrete inputs, with the matcher contract and the
self-match hypothesis discharged by evaluation of the concrete matcher. -/
theorem c1_witness :
    (∃ out, merge_lines get_matching_blocks WordMergeMode.disabled {}
        (bs "X\n") (bs "X\n") (bs "Y\n") = .ok (out, false, 0) ∧
      joinl out = bs "Y\n") ∧
    (∃ out, merge_lines get_matching_blocks WordMergeMode.disabled {}
        (bs "X\n") (bs "Y\n") (bs "X\n") = .ok (out, false, 0) ∧
      joinl out = bs "Y\n") :=
  c1 get_matching_blocks (bs "X\n") (bs "Y\n")
    (by unfold BlocksOK
        refine ⟨by decide, ?_, rfl⟩
        rw [show get_matching_blocks (bs "X\n") (bs "Y\n")
            = [MBlock.mk 1 1 0] from rfl]
        exact List.chain'_singleton _)
    (by rfl)

end Simplemerge
